import Mathlib

/-!
# Bank account demo: accounts, amount validator and menus

A shallow embedding of `main.cpp`.

* The C++ type `double` is modelled as IEEE 754 binary64, bit for bit: a sign bit and 63 further
  bits. Addition and subtraction compute the exact result and round it to nearest, ties to
  even; comparisons follow IEEE (a NaN compares false with everything, the two zeros are
  equal). Which NaN an operation produces is left open by IEEE; here it is one fixed quiet NaN.
* A member function that mutates `this` becomes a function returning the updated object.
* Text written to `wcout` becomes a list of `Msg`, one constructor per distinct piece of output.
* Standard input is the list of characters typed so far, line ends included. Formatted
  extraction follows the C++ standard library in its classic locale (where implementations
  differ on malformed numerals, GNU libstdc++). When an operation needs a character that has
  not been typed yet, the run stops with status `awaitingInput`.
* Loops take a fuel argument; `main_fuel` and its companions show that one unit of fuel more
  than there are characters is always enough.
-/

namespace BankDemo

/-! ## The type `double` -/

/-- Number of binary digits of `n`, for `n` below `2 ^ 2 ^ j`, found by halving the search
range `j` times. -/
def bitLenAux : Nat → Nat → Nat
  | 0, n => if n = 0 then 0 else 1
  | j + 1, n =>
    if n >>> (2 ^ j) = 0 then bitLenAux j n
    else 2 ^ j + bitLenAux j (n >>> (2 ^ j))

/-- Number of binary digits of `n`, for `n` below `2 ^ 4096`. -/
def bitLen (n : Nat) : Nat := bitLenAux 12 n

/-- An IEEE 754 binary64 value: the sign bit and the other 63 bits (11 exponent bits, then 52
fraction bits) read as one number. -/
structure Double where
  neg : Bool
  mag : Fin 9223372036854775808
  deriving DecidableEq, Repr

namespace Double

/-- The 63 low bits of an infinity: exponent field 2047, fraction 0. -/
def INF_MAG : Nat := 9218868437227405312

/-- The magnitude bits, saturated at those of infinity, with a sign. Used for results of
rounding, which never exceed `INF_MAG`. -/
def ofMag (neg : Bool) (m : Nat) : Double :=
  { neg := neg, mag := ⟨min m INF_MAG, lt_of_le_of_lt (Nat.min_le_right m INF_MAG) (by decide)⟩ }

/-- The position of the last kept bit when the magnitude `T`, in units of `2 ^ -1076`, is cut
to 53 significant bits; never below 2, the position of the smallest positive double. -/
def roundShift (T : Nat) : Nat := max (bitLen T - 53) 2

/-- The quotient `T / 2 ^ s` rounded to nearest, ties to even. -/
def roundNearestEven (T s : Nat) : Nat :=
  let q := T >>> s
  let r := T - (q <<< s)
  let half := 1 <<< (s - 1)
  if half < r ∨ (r = half ∧ q % 2 = 1) then q + 1 else q

/-- Round to nearest, ties to even. `T` is a magnitude in units of `2 ^ -1076`, a quarter of
the smallest positive double; when the exact magnitude is not a whole number of these units,
`T` is its integer part with the lowest bit set. The result is the 63 magnitude bits of the
nearest double: the kept bits added to the exponent field, so that a carry out of the fraction
moves to the next exponent. Magnitudes of `2 ^ 1024` or more give infinity. -/
def roundMag (T : Nat) : Nat :=
  if 1 <<< 2100 ≤ T then INF_MAG
  else ((roundShift T - 2) <<< 52) + roundNearestEven T (roundShift T)

/-- The double nearest to the magnitude `T` (see `roundMag`), with the given sign. -/
def round (neg : Bool) (T : Nat) : Double := ofMag neg (roundMag T)

/-- Exact magnitude of a finite double in units of `2 ^ -1076`. -/
def qunits (d : Double) : Nat :=
  let e := d.mag.val / 4503599627370496
  let m := d.mag.val % 4503599627370496
  if e = 0 then m <<< 2 else (4503599627370496 + m) <<< (e + 1)

/-- Exact value of a finite double in units of `2 ^ -1076`. -/
def sunits (d : Double) : Int :=
  if d.neg then -(d.qunits : Int) else (d.qunits : Int)

/-- Exponent field 2047 and a non-zero fraction. -/
def isNaN (d : Double) : Bool := decide (INF_MAG < d.mag.val)

/-- Exponent field 2047 and fraction 0. -/
def isInf (d : Double) : Bool := decide (d.mag.val = INF_MAG)

/-- Exponent field below 2047: zero, subnormal or normal. -/
def isFinite (d : Double) : Bool := decide (d.mag.val < INF_MAG)

/-- A quiet NaN. -/
def nan : Double := { neg := false, mag := ⟨9221120237041090560, by decide⟩ }

/-- Infinity with the given sign. -/
def inf (neg : Bool) : Double := { neg := neg, mag := ⟨9218868437227405312, by decide⟩ }

/-- Unary minus: the sign bit is flipped. -/
def negate (d : Double) : Double := { d with neg := !d.neg }

/-- The sum `x + y` of IEEE 754 in the default rounding mode: NaN if an operand is NaN or the
operands are infinities of opposite sign; an infinite operand otherwise wins; the sum of two
finite values is computed exactly and rounded, and an exact zero sum is `-0` only when both
operands are negative. -/
def add (x y : Double) : Double :=
  if x.isNaN || y.isNaN then nan
  else if x.isInf then (if y.isInf && (x.neg != y.neg) then nan else x)
  else if y.isInf then y
  else
    let s : Int := x.sunits + y.sunits
    if s = 0 then { neg := x.neg && y.neg, mag := ⟨0, by decide⟩ }
    else round (decide (s < 0)) s.natAbs

/-- The difference `x - y`: IEEE 754 defines it as `x + (-y)`. -/
def sub (x y : Double) : Double := add x (negate y)

/-- The sign and magnitude bits as a signed integer. For values that are not NaN, the order
of these integers is the order of the values, and both zeros have key 0. -/
def key (d : Double) : Int := if d.neg then -(d.mag.val : Int) else (d.mag.val : Int)

/-- The comparison `x < y`: false when either side is NaN. -/
def lt (x y : Double) : Bool := !x.isNaN && !y.isNaN && decide (x.key < y.key)

/-- The comparison `x <= y`: false when either side is NaN. -/
def le (x y : Double) : Bool := !x.isNaN && !y.isNaN && decide (x.key ≤ y.key)

/-- Conversion of a non-negative integer to `double`, as for the literals `1000.0` and
`2000.0` and for the `int` constant in `amount <= 0`. -/
def ofNat (n : Nat) : Double := round false (n <<< 1076)

/-- The double nearest to the decimal value `D * 10 ^ x`, with the given sign: what `strtod`
yields for a numeral with digits `D` and decimal exponent `x`. The value is taken in units of
`2 ^ -1076`, with the lowest bit set when it is not a whole number of units, and rounded. -/
def ofDecimal (neg : Bool) (D : Nat) (x : Int) : Double :=
  let p := if 0 ≤ x then D * 10 ^ x.toNat else D
  let q := if 0 ≤ x then 1 else 10 ^ (-x).toNat
  let m := (p <<< 1076) / q
  let T := if (p <<< 1076) % q = 0 then m else 2 * (m / 2) + 1
  round neg T

instance : Add Double := ⟨add⟩

instance : Sub Double := ⟨sub⟩

instance : LT Double := ⟨fun x y => x.lt y = true⟩

instance : LE Double := ⟨fun x y => x.le y = true⟩

instance (x y : Double) : Decidable (x < y) := inferInstanceAs (Decidable (x.lt y = true))

instance (x y : Double) : Decidable (x ≤ y) := inferInstanceAs (Decidable (x.le y = true))

instance (n : Nat) : OfNat Double n := ⟨ofNat n⟩

/-- Exact value of a finite double, as a rational number. -/
def toRat (d : Double) : ℚ := (d.sunits : ℚ) / 2 ^ 1076

/-- The 64 bits as one number, sign bit on top. -/
def bits (d : Double) : Nat := (if d.neg then 9223372036854775808 else 0) + d.mag.val

end Double

open Double

/-! ## Output -/

/-- The pieces of text the program writes, in the order of their first appearance in the
source. `clear` stands for `clearScreen()` and `pause` for the prompt of `pauseScreen()`. -/
inductive Msg
  | pause
  | clear
  | invalidDeposit
  | deposited (amount balance : Double)
  | invalidWithdrawal
  | insufficientSavings
  | withdrawn (amount balance : Double)
  | insufficientCurrent
  | invalidAmount
  | savingsBanner
  | currentBanner
  | accountOptions
  | invalidInput
  | depositPrompt
  | withdrawPrompt
  | balance (b : Double)
  | returning
  | invalidOption
  | mainMenu
  | exiting
  deriving DecidableEq, Repr

/-- `class SavingsAccount`: the only data member that changes is `balance`. -/
structure SavingsAccount where
  balance : Double
  deriving DecidableEq, Repr

/-- `class CurrentAccount`. -/
structure CurrentAccount where
  balance : Double
  deriving DecidableEq, Repr

/-- `const double MIN_BALANCE = 1000.0;` -/
def SavingsAccount.MIN_BALANCE : Double := 1000

/-- `void SavingsAccount::deposit(const double amount)`. -/
def SavingsAccount.deposit (self : SavingsAccount) (amount : Double) : SavingsAccount × List Msg :=
  if amount ≤ 0 then
    (self, [Msg.invalidDeposit])
  else
    let self1 : SavingsAccount := { balance := self.balance + amount }
    (self1, [Msg.deposited amount self1.balance])

/-- `bool SavingsAccount::withdraw(const double amount)`: the returned flag, the object
afterwards and the text written. -/
def SavingsAccount.withdraw (self : SavingsAccount) (amount : Double) :
    Bool × SavingsAccount × List Msg :=
  if amount ≤ 0 then
    (false, self, [Msg.invalidWithdrawal])
  else if self.balance - amount < SavingsAccount.MIN_BALANCE then
    (false, self, [Msg.insufficientSavings])
  else
    let self1 : SavingsAccount := { balance := self.balance - amount }
    (true, self1, [Msg.withdrawn amount self1.balance])

/-- `double SavingsAccount::checkBalance() const`: the returned value and the object
afterwards. -/
def SavingsAccount.checkBalance (self : SavingsAccount) : Double × SavingsAccount :=
  (self.balance, self)

/-- `void CurrentAccount::deposit(const double amount)`. -/
def CurrentAccount.deposit (self : CurrentAccount) (amount : Double) : CurrentAccount × List Msg :=
  if amount ≤ 0 then
    (self, [Msg.invalidDeposit])
  else
    let self1 : CurrentAccount := { balance := self.balance + amount }
    (self1, [Msg.deposited amount self1.balance])

/-- `bool CurrentAccount::withdraw(const double amount)`. -/
def CurrentAccount.withdraw (self : CurrentAccount) (amount : Double) :
    Bool × CurrentAccount × List Msg :=
  if amount ≤ 0 then
    (false, self, [Msg.invalidWithdrawal])
  else if self.balance - amount < 0 then
    (false, self, [Msg.insufficientCurrent])
  else
    let self1 : CurrentAccount := { balance := self.balance - amount }
    (true, self1, [Msg.withdrawn amount self1.balance])

/-- `double CurrentAccount::checkBalance() const`. -/
def CurrentAccount.checkBalance (self : CurrentAccount) : Double × CurrentAccount :=
  (self.balance, self)

/-- An object seen through the abstract base `BankAccount`: one of the two final classes. -/
inductive BankAccount
  | savings (a : SavingsAccount)
  | current (a : CurrentAccount)
  deriving DecidableEq, Repr

/-- The protected member `balance` of the base class. -/
def BankAccount.balance : BankAccount → Double
  | .savings a => a.balance
  | .current a => a.balance

/-- Virtual call `deposit(amount)`. -/
def BankAccount.deposit : BankAccount → Double → BankAccount × List Msg
  | .savings a, amount => (BankAccount.savings (a.deposit amount).1, (a.deposit amount).2)
  | .current a, amount => (BankAccount.current (a.deposit amount).1, (a.deposit amount).2)

/-- Virtual call `withdraw(amount)`. -/
def BankAccount.withdraw : BankAccount → Double → Bool × BankAccount × List Msg
  | .savings a, amount =>
    ((a.withdraw amount).1, BankAccount.savings (a.withdraw amount).2.1, (a.withdraw amount).2.2)
  | .current a, amount =>
    ((a.withdraw amount).1, BankAccount.current (a.withdraw amount).2.1, (a.withdraw amount).2.2)

/-- Virtual call `checkBalance()`. -/
def BankAccount.checkBalance : BankAccount → Double × BankAccount
  | .savings a => (a.checkBalance.1, BankAccount.savings a.checkBalance.2)
  | .current a => (a.checkBalance.1, BankAccount.current a.checkBalance.2)

/-- Virtual call `getName()`. -/
def BankAccount.getName : BankAccount → String
  | .savings _ => "Savings Account"
  | .current _ => "Current Account"

/-- `n` consecutive `checkBalance()` calls on one object: the values returned, in order, and
the object afterwards. -/
def BankAccount.checkBalanceTimes : Nat → BankAccount → List Double × BankAccount
  | 0, acct => ([], acct)
  | n + 1, acct =>
    let r := acct.checkBalance
    let rs := BankAccount.checkBalanceTimes n r.2
    (r.1 :: rs.1, rs.2)

/-- The locals `savings` and `current` of `main`. -/
structure Bank where
  savings : SavingsAccount
  current : CurrentAccount
  deriving DecidableEq, Repr

/-- `SavingsAccount savings(2000.0); CurrentAccount current(3000.0);` -/
def initialBank : Bank := { savings := { balance := 2000 }, current := { balance := 3000 } }

/-- A non-null `BankAccount *`: it points at one of the two locals of `main`. -/
inductive AccountRef
  | savings
  | current
  deriving DecidableEq, Repr

/-- `account->deposit(amount)`. -/
def Bank.deposit (bank : Bank) (account : AccountRef) (amount : Double) : Bank × List Msg :=
  match account with
  | .savings => ({ bank with savings := (bank.savings.deposit amount).1 },
      (bank.savings.deposit amount).2)
  | .current => ({ bank with current := (bank.current.deposit amount).1 },
      (bank.current.deposit amount).2)

/-- `account->withdraw(amount)`. -/
def Bank.withdraw (bank : Bank) (account : AccountRef) (amount : Double) :
    Bool × Bank × List Msg :=
  match account with
  | .savings => ((bank.savings.withdraw amount).1,
      { bank with savings := (bank.savings.withdraw amount).2.1 },
      (bank.savings.withdraw amount).2.2)
  | .current => ((bank.current.withdraw amount).1,
      { bank with current := (bank.current.withdraw amount).2.1 },
      (bank.current.withdraw amount).2.2)

/-- `account->checkBalance()`. -/
def Bank.checkBalance (bank : Bank) (account : AccountRef) : Double × Bank :=
  match account with
  | .savings => (bank.savings.checkBalance.1, { bank with savings := bank.savings.checkBalance.2 })
  | .current => (bank.current.checkBalance.1, { bank with current := bank.current.checkBalance.2 })

/-- One member-function call on one of the two accounts. -/
inductive Call
  | deposit (account : AccountRef) (amount : Double)
  | withdraw (account : AccountRef) (amount : Double)
  | checkBalance (account : AccountRef)
  deriving DecidableEq, Repr

/-- The amount a call passes, if it passes one. -/
def Call.amount : Call → Option Double
  | .deposit _ amount => some amount
  | .withdraw _ amount => some amount
  | .checkBalance _ => none

/-- The two accounts after one call. -/
def Bank.call (bank : Bank) : Call → Bank
  | .deposit account amount => (bank.deposit account amount).1
  | .withdraw account amount => (bank.withdraw account amount).2.1
  | .checkBalance account => (bank.checkBalance account).2

/-- The two accounts after a sequence of calls, made in order. -/
def Bank.calls (bank : Bank) (cs : List Call) : Bank :=
  cs.foldl Bank.call bank

/-! ## Standard input -/

/-- White space in the classic locale, which `wcin >> x` skips before it reads. -/
def isSpace (c : Char) : Bool :=
  c = ' ' || c = '\t' || c = '\n' || c = '\x0b' || c = '\x0c' || c = '\r'

/-- The input with leading white space, line ends included, removed. -/
def skipSpaces : List Char → List Char
  | [] => []
  | c :: cs => if isSpace c then skipSpaces cs else c :: cs

/-- A decimal digit. -/
def isDigit (c : Char) : Bool := decide ('0' ≤ c) && decide (c ≤ '9')

/-- The value of a decimal digit. -/
def digitValue (c : Char) : Nat := c.toNat - 48

/-- The longest run of digits at the front of the text, and what follows it. -/
def takeDigits : List Char → List Char × List Char
  | [] => ([], [])
  | c :: cs =>
    if isDigit c then ((c :: (takeDigits cs).1), (takeDigits cs).2)
    else ([], c :: cs)

/-- The number a run of digits denotes in base ten. -/
def digitsValue (ds : List Char) : Nat :=
  ds.foldl (fun n c => 10 * n + digitValue c) 0

/-- An optional sign at the front of the text (`some true` for `-`), and what follows
it. -/
def takeSign : List Char → Option Bool × List Char
  | [] => (none, [])
  | c :: cs =>
    if c = '+' then (some false, cs)
    else if c = '-' then (some true, cs)
    else (none, c :: cs)

/-- Largest value of the C++ type `int` (32 bits). -/
def INT_MAX : Int := 2147483647

/-- Smallest value of the C++ type `int` (32 bits). -/
def INT_MIN : Int := -2147483648

/-- Outcome of `wcin >> x` for an `int x` : whether `wcin.fail()` holds afterwards, and the
value stored in `x`. -/
structure IntRead where
  fail : Bool
  value : Int
  deriving DecidableEq, Repr

/-- Formatted extraction into an `int`, from text with no leading white space (since C++11,
`dec` base): an optional sign and the digits after it are used up; with no digit, 0 is stored
and the stream fails; a value out of range stores the nearest bound and the stream fails;
otherwise the value is stored. Whatever follows the digits stays in the stream. -/
def scanInt (cs : List Char) : IntRead × List Char :=
  let sign := takeSign cs
  let ds := takeDigits sign.2
  if ds.1 = [] then ({ fail := true, value := 0 }, ds.2)
  else
    let n : Int := if sign.1 = some true then -(digitsValue ds.1 : Int) else (digitsValue ds.1 : Int)
    if n < INT_MIN then ({ fail := true, value := INT_MIN }, ds.2)
    else if INT_MAX < n then ({ fail := true, value := INT_MAX }, ds.2)
    else ({ fail := false, value := n }, ds.2)

/-- `wcin >> x` for an `int x`: white space is skipped, then `scanInt` reads. The result is
`none` when the typed input ends before the end of the numeral is known. -/
def extractInt (input : List Char) : Option (IntRead × List Char) :=
  match skipSpaces input with
  | [] => none
  | c :: cs =>
    let r := scanInt (c :: cs)
    if r.2 = [] then none else some r

/-- Outcome of `wcin >> x` for a `double x`. -/
structure DoubleRead where
  fail : Bool
  value : Double
  deriving DecidableEq, Repr

/-- The largest finite double, with the given sign: `0x7FEFFFFFFFFFFFFF`. -/
def DBL_MAX (neg : Bool) : Double := { neg := neg, mag := ⟨9218868437227405311, by decide⟩ }

/-- An optional decimal point with the digits after it, and what follows. -/
def takeFraction : List Char → List Char × List Char
  | [] => ([], [])
  | c :: cs => if c = '.' then takeDigits cs else ([], c :: cs)

/-- An optional exponent part: `e` or `E`, an optional sign and digits (possibly none), and
what follows. -/
def takeExponent : List Char → Option (Option Bool × List Char) × List Char
  | [] => (none, [])
  | c :: cs =>
    if c = 'e' ∨ c = 'E' then
      (some ((takeSign cs).1, (takeDigits (takeSign cs).2).1), (takeDigits (takeSign cs).2).2)
    else (none, c :: cs)

/-- The last step of the conversion: a result of infinity means the numeral was out of range,
the largest finite double of that sign is stored and the stream fails. -/
def storeDouble (neg : Bool) (v : Double) : DoubleRead :=
  if v.isInf then { fail := true, value := DBL_MAX neg }
  else { fail := false, value := v }

/-- Conversion of the characters accepted for a `double` (sign, mantissa digits of which
`fracLen` follow the point, exponent part): an exponent part without digits makes the
conversion fail with 0 stored; otherwise the decimal value is rounded to the nearest double,
values that round to zero included. -/
def convertDouble (neg : Bool) (mantissa : List Char) (fracLen : Nat) :
    Option (Option Bool × List Char) → DoubleRead
  | none => storeDouble neg (Double.ofDecimal neg (digitsValue mantissa) (-(fracLen : Int)))
  | some (_, []) => { fail := true, value := 0 }
  | some (es, d :: ds) =>
    let x : Int :=
      if es = some true then -(digitsValue (d :: ds) : Int) else (digitsValue (d :: ds) : Int)
    storeDouble neg (Double.ofDecimal neg (digitsValue mantissa) (x - (fracLen : Int)))

/-- Formatted extraction into a `double`, from text with no leading white space: an optional
sign, digits, an optional point and digits, and, once a digit has been seen, an optional
exponent part are used up. Without any mantissa digit 0 is stored and the stream fails.
Whatever follows stays in the stream. -/
def scanDouble (cs : List Char) : DoubleRead × List Char :=
  let sign := takeSign cs
  let ip := takeDigits sign.2
  let fp := takeFraction ip.2
  if ip.1 ++ fp.1 = [] then ({ fail := true, value := 0 }, fp.2)
  else
    let ex := takeExponent fp.2
    (convertDouble (sign.1 = some true) (ip.1 ++ fp.1) fp.1.length ex.1, ex.2)

/-- `wcin >> x` for a `double x`: white space is skipped, then `scanDouble` reads. The result
is `none` when the typed input ends before the end of the numeral is known. -/
def extractDouble (input : List Char) : Option (DoubleRead × List Char) :=
  match skipSpaces input with
  | [] => none
  | c :: cs =>
    let r := scanDouble (c :: cs)
    if r.2 = [] then none else some r

/-- `wcin.ignore(numeric_limits<streamsize>::max(), '\n')`: everything up to and including
the next line end is dropped; `none` when no line end has been typed yet. -/
def ignoreLine : List Char → Option (List Char)
  | [] => none
  | c :: cs => if c = '\n' then some cs else ignoreLine cs

/-- `wcin.get()`: one character is used up; `none` when none has been typed yet. -/
def get : List Char → Option (List Char)
  | [] => none
  | _ :: cs => some cs

/-- The reads of `pauseScreen()`: the rest of the current line is dropped and one more
character, the Enter key press, is used up. -/
def pauseScreen (input : List Char) : Option (List Char) :=
  match ignoreLine input with
  | none => none
  | some rest => get rest

/-! ## Lines of input -/

/-- The text made of the given lines, each followed by a line end. -/
def unlines : List (List Char) → List Char
  | [] => []
  | l :: ls => l ++ '\n' :: unlines ls

/-- A line that holds an entry: it is not empty, does not start with white space and contains
no line end. -/
def isEntry : List Char → Bool
  | [] => false
  | c :: cs => !isSpace c && !(c :: cs).contains '\n'

/-! ## Amount validator (model) -/

/-- How a run stands when the model stops following it: the function has returned, or it is
blocked on a read for which nothing has been typed yet, or the fuel has run out. -/
inductive Status
  | returned
  | awaitingInput
  | outOfFuel
  deriving DecidableEq, Repr

/-- The result of running `getValidAmount`: the text written, the input left, and, when
`status` is `returned`, the amount returned. -/
structure AmountRun where
  out : List Msg
  amount : Double
  rest : List Char
  status : Status
  deriving DecidableEq, Repr

/-- The same result with `out` written before it. -/
def AmountRun.after (out : List Msg) (r : AmountRun) : AmountRun :=
  { r with out := out ++ r.out }

/-- The loop `while (true)` of `getValidAmount`, with at most `fuel` passes. An entry is
rejected when `wcin.fail() || amount < 0`; the error message is written and
`wcin.clear(); wcin.ignore(..., '\n')` drops the rest of its line. -/
def getValidAmountLoop : Nat → List Char → AmountRun
  | 0, input => { out := [], amount := 0, rest := input, status := .outOfFuel }
  | fuel + 1, input =>
    match extractDouble input with
    | none => { out := [], amount := 0, rest := input, status := .awaitingInput }
    | some (r, rest) =>
      if r.fail || decide (r.value < 0) then
        match ignoreLine rest with
        | none =>
          { out := [Msg.invalidAmount], amount := r.value, rest := rest,
            status := .awaitingInput }
        | some rest1 => (getValidAmountLoop fuel rest1).after [Msg.invalidAmount]
      else
        { out := [], amount := r.value, rest := rest, status := .returned }

/-- `double getValidAmount()`. Every pass that does not return uses up at least a line end,
so one pass more than there are characters is enough fuel. -/
def getValidAmount (input : List Char) : AmountRun :=
  getValidAmountLoop (input.length + 1) input

/-! ## Account menu -/

/-- The state after one pass through the body of the `do ... while` loop of `subMenu`. -/
structure SubStep where
  bank : Bank
  out : List Msg
  rest : List Char
  subChoice : Int
  status : Status
  deriving DecidableEq, Repr

/-- The banner `subMenu` prints for the account selected by `choice`. -/
def subMenuBanner (choice : Int) : List Msg :=
  if choice = 1 then [Msg.savingsBanner]
  else if choice = 2 then [Msg.currentBanner]
  else []

/-- The body of the `do ... while` loop of `subMenu`, up to the point where control reaches
the loop condition (at the end of the body, or through `continue`). `status` is `returned`
when that point is reached. -/
def subMenuBody (account : AccountRef) (choice : Int) (bank : Bank) (input : List Char) :
    SubStep :=
  let shown := Msg.clear :: subMenuBanner choice ++ [Msg.accountOptions]
  match extractInt input with
  | none => { bank := bank, out := shown, rest := input, subChoice := 0, status := .awaitingInput }
  | some (r, rest) =>
    if r.fail then
      match ignoreLine rest with
      | none =>
        { bank := bank, out := shown ++ [Msg.clear], rest := rest, subChoice := r.value,
          status := .awaitingInput }
      | some rest1 =>
        match pauseScreen rest1 with
        | none =>
          { bank := bank, out := shown ++ [Msg.clear, Msg.invalidInput, Msg.pause],
            rest := rest1, subChoice := r.value, status := .awaitingInput }
        | some rest2 =>
          -- `continue;`
          { bank := bank, out := shown ++ [Msg.clear, Msg.invalidInput, Msg.pause],
            rest := rest2, subChoice := r.value, status := .returned }
    else if r.value = 1 then
      let asked := shown ++ [Msg.clear, Msg.depositPrompt]
      let g := getValidAmount rest
      match g.status with
      | .returned =>
        let d := bank.deposit account g.amount
        match pauseScreen g.rest with
        | none =>
          { bank := d.1, out := asked ++ g.out ++ d.2 ++ [Msg.pause], rest := g.rest,
            subChoice := r.value, status := .awaitingInput }
        | some rest2 =>
          { bank := d.1, out := asked ++ g.out ++ d.2 ++ [Msg.pause], rest := rest2,
            subChoice := r.value, status := .returned }
      | s =>
        { bank := bank, out := asked ++ g.out, rest := g.rest, subChoice := r.value, status := s }
    else if r.value = 2 then
      let asked := shown ++ [Msg.clear, Msg.withdrawPrompt]
      let g := getValidAmount rest
      match g.status with
      | .returned =>
        let w := bank.withdraw account g.amount
        match pauseScreen g.rest with
        | none =>
          { bank := w.2.1, out := asked ++ g.out ++ w.2.2 ++ [Msg.pause], rest := g.rest,
            subChoice := r.value, status := .awaitingInput }
        | some rest2 =>
          { bank := w.2.1, out := asked ++ g.out ++ w.2.2 ++ [Msg.pause], rest := rest2,
            subChoice := r.value, status := .returned }
      | s =>
        { bank := bank, out := asked ++ g.out, rest := g.rest, subChoice := r.value, status := s }
    else if r.value = 3 then
      let c := bank.checkBalance account
      match pauseScreen rest with
      | none =>
        { bank := c.2, out := shown ++ [Msg.clear, Msg.balance c.1, Msg.pause], rest := rest,
          subChoice := r.value, status := .awaitingInput }
      | some rest2 =>
        { bank := c.2, out := shown ++ [Msg.clear, Msg.balance c.1, Msg.pause], rest := rest2,
          subChoice := r.value, status := .returned }
    else if r.value = 4 then
      match pauseScreen rest with
      | none =>
        { bank := bank, out := shown ++ [Msg.clear, Msg.returning, Msg.pause], rest := rest,
          subChoice := r.value, status := .awaitingInput }
      | some rest2 =>
        { bank := bank, out := shown ++ [Msg.clear, Msg.returning, Msg.pause], rest := rest2,
          subChoice := r.value, status := .returned }
    else
      match pauseScreen rest with
      | none =>
        { bank := bank, out := shown ++ [Msg.invalidOption, Msg.pause], rest := rest,
          subChoice := r.value, status := .awaitingInput }
      | some rest2 =>
        { bank := bank, out := shown ++ [Msg.invalidOption, Msg.pause], rest := rest2,
          subChoice := r.value, status := .returned }

/-- The result of running a menu function on some input. -/
structure Run where
  bank : Bank
  out : List Msg
  rest : List Char
  status : Status
  deriving DecidableEq, Repr

/-- The same run with `out` written before it. -/
def Run.after (out : List Msg) (r : Run) : Run :=
  { r with out := out ++ r.out }

/-- The loop `do { body } while (subChoice != 4);` of `subMenu`, with at most `fuel` passes
through the body. -/
def subMenuLoop : Nat → AccountRef → Int → Bank → List Char → Run
  | 0, _, _, bank, input => { bank := bank, out := [], rest := input, status := .outOfFuel }
  | fuel + 1, account, choice, bank, input =>
    let b := subMenuBody account choice bank input
    match b.status with
    | .returned =>
      if b.subChoice ≠ 4 then
        (subMenuLoop fuel account choice b.bank b.rest).after b.out
      else
        { bank := b.bank, out := b.out, rest := b.rest, status := .returned }
    | s => { bank := b.bank, out := b.out, rest := b.rest, status := s }

/-- `void subMenu(BankAccount *account, const int choice)`. Every pass through the loop body
that reaches the loop condition uses up at least one character, so one pass more than there
are characters is enough fuel. -/
def subMenu (account : AccountRef) (choice : Int) (bank : Bank) (input : List Char) : Run :=
  subMenuLoop (input.length + 1) account choice bank input

/-! ## Main menu -/

/-- The state after one pass through the body of the `do ... while` loop of `main`. -/
structure MainStep where
  account : Option AccountRef
  bank : Bank
  out : List Msg
  rest : List Char
  choice : Int
  status : Status
  deriving DecidableEq, Repr

/-- The body of the `do ... while` loop of `main`, up to the point where control reaches the
loop condition. `account` is the pointer `BankAccount *account`, `none` for `nullptr`. -/
def mainBody (account : Option AccountRef) (bank : Bank) (input : List Char) : MainStep :=
  let shown := [Msg.clear, Msg.mainMenu]
  match extractInt input with
  | none => { account := account, bank := bank, out := shown, rest := input, choice := 0,
              status := .awaitingInput }
  | some (r, rest) =>
    if r.fail then
      match ignoreLine rest with
      | none =>
        { account := account, bank := bank, out := shown ++ [Msg.clear], rest := rest,
          choice := r.value, status := .awaitingInput }
      | some rest1 =>
        match pauseScreen rest1 with
        | none =>
          { account := account, bank := bank,
            out := shown ++ [Msg.clear, Msg.invalidInput, Msg.pause], rest := rest1,
            choice := r.value, status := .awaitingInput }
        | some rest2 =>
          -- `continue;`
          { account := account, bank := bank,
            out := shown ++ [Msg.clear, Msg.invalidInput, Msg.pause], rest := rest2,
            choice := r.value, status := .returned }
    else
      -- `switch (choice)`: the new pointer and the text written, or `none` for the
      -- `default:` label, which ends in `continue;`
      let switched : Option (Option AccountRef × List Msg) :=
        if r.value = 1 then some (some AccountRef.savings, [])
        else if r.value = 2 then some (some AccountRef.current, [])
        else if r.value = 3 then some (account, [Msg.exiting])
        else none
      match switched with
      | none =>
        match pauseScreen rest with
        | none =>
          { account := account, bank := bank, out := shown ++ [Msg.invalidOption, Msg.pause],
            rest := rest, choice := r.value, status := .awaitingInput }
        | some rest2 =>
          -- `continue;`
          { account := account, bank := bank, out := shown ++ [Msg.invalidOption, Msg.pause],
            rest := rest2, choice := r.value, status := .returned }
      | some (none, said) =>
        -- `if (account == nullptr) continue;`
        { account := none, bank := bank, out := shown ++ said, rest := rest,
          choice := r.value, status := .returned }
      | some (some a, said) =>
        let sub := subMenu a r.value bank rest
        { account := some a, bank := sub.bank, out := shown ++ said ++ sub.out,
          rest := sub.rest, choice := r.value, status := sub.status }

/-- The loop `do { body } while (choice != 3);` of `main`, with at most `fuel` passes through
the body. -/
def mainLoop : Nat → Option AccountRef → Bank → List Char → Run
  | 0, _, bank, input => { bank := bank, out := [], rest := input, status := .outOfFuel }
  | fuel + 1, account, bank, input =>
    let b := mainBody account bank input
    match b.status with
    | .returned =>
      if b.choice ≠ 3 then
        (mainLoop fuel b.account b.bank b.rest).after b.out
      else
        { bank := b.bank, out := b.out, rest := b.rest, status := .returned }
    | s => { bank := b.bank, out := b.out, rest := b.rest, status := s }

/-- `int main()`: the two accounts are created, the pointer starts as `nullptr`, and the main
menu loop runs. -/
def main (input : List Char) : Run :=
  mainLoop (input.length + 1) none initialBank input

/-! ### Facts about rounding -/

theorem bitLenAux_spec (j : Nat) : ∀ n : Nat, n < 2 ^ 2 ^ j →
    n < 2 ^ bitLenAux j n ∧ (n ≠ 0 → 2 ^ (bitLenAux j n - 1) ≤ n) := by
  induction j with
  | zero =>
    intro n hn
    have hn2 : n < 2 := by simpa using hn
    interval_cases n <;> simp [bitLenAux]
  | succ j ih =>
    intro n hn
    have hpow : 2 ^ 2 ^ (j + 1) = 2 ^ 2 ^ j * 2 ^ 2 ^ j := by
      rw [pow_succ, pow_mul, pow_two]
    have hpos : 0 < 2 ^ 2 ^ j := Nat.two_pow_pos _
    simp only [bitLenAux, Nat.shiftRight_eq_div_pow]
    by_cases h0 : n / 2 ^ 2 ^ j = 0
    · simp only [h0, if_true]
      have : n < 2 ^ 2 ^ j := by
        exact (Nat.div_eq_zero_iff hpos).mp h0
      exact ih n this
    · simp only [h0, if_false]
      have hlt : n / 2 ^ 2 ^ j < 2 ^ 2 ^ j := by
        rw [Nat.div_lt_iff_lt_mul hpos, ← hpow]
        exact hn
      obtain ⟨h1, h2⟩ := ih (n / 2 ^ 2 ^ j) hlt
      have h2 := h2 h0
      have hL : 0 < bitLenAux j (n / 2 ^ 2 ^ j) := by
        by_contra hc
        have : bitLenAux j (n / 2 ^ 2 ^ j) = 0 := by omega
        rw [this] at h1
        simp at h1
        exact h0 h1
      constructor
      · rw [pow_add]
        have := Nat.lt_mul_div_succ n hpos
        calc n < 2 ^ 2 ^ j * (n / 2 ^ 2 ^ j + 1) := this
          _ ≤ 2 ^ 2 ^ j * 2 ^ bitLenAux j (n / 2 ^ 2 ^ j) := Nat.mul_le_mul_left _ h1
      · intro _
        have e : 2 ^ j + bitLenAux j (n / 2 ^ 2 ^ j) - 1
            = 2 ^ j + (bitLenAux j (n / 2 ^ 2 ^ j) - 1) := Nat.add_sub_assoc hL _
        rw [e, pow_add]
        calc 2 ^ 2 ^ j * 2 ^ (bitLenAux j (n / 2 ^ 2 ^ j) - 1)
            ≤ 2 ^ 2 ^ j * (n / 2 ^ 2 ^ j) := Nat.mul_le_mul_left _ h2
          _ ≤ n := Nat.mul_div_le n _

theorem bitLen_spec (n : Nat) (hn : n < 2 ^ 4096) :
    n < 2 ^ bitLen n ∧ (n ≠ 0 → 2 ^ (bitLen n - 1) ≤ n) :=
  bitLenAux_spec 12 n (by simpa using hn)

theorem bitLen_mono (a b : Nat) (hb : b < 2 ^ 4096) (h : a ≤ b) : bitLen a ≤ bitLen b := by
  by_contra hc
  have hc : bitLen b < bitLen a := not_le.mp hc
  have ha : a < 2 ^ 4096 := lt_of_le_of_lt h hb
  obtain ⟨_, ha2⟩ := bitLen_spec a ha
  obtain ⟨hb1, _⟩ := bitLen_spec b hb
  have ha0 : a ≠ 0 := by
    intro h0
    have : bitLen a = 0 := by rw [h0]; decide
    omega
  have := ha2 ha0
  have hle : 2 ^ bitLen b ≤ 2 ^ (bitLen a - 1) := Nat.pow_le_pow_right (by norm_num) (by omega)
  omega


theorem roundNearestEven_ge (T s : Nat) : T / 2 ^ s ≤ roundNearestEven T s := by
  simp only [roundNearestEven, Nat.shiftRight_eq_div_pow]
  split_ifs <;> omega

theorem roundNearestEven_le (T s : Nat) : roundNearestEven T s ≤ T / 2 ^ s + 1 := by
  simp only [roundNearestEven, Nat.shiftRight_eq_div_pow]
  split_ifs <;> omega

theorem roundNearestEven_mono (s a b : Nat) (h : a ≤ b) :
    roundNearestEven a s ≤ roundNearestEven b s := by
  have hq : a / 2 ^ s ≤ b / 2 ^ s := Nat.div_le_div_right h
  rcases Nat.lt_or_ge (a / 2 ^ s) (b / 2 ^ s) with hlt | hge
  · calc roundNearestEven a s ≤ a / 2 ^ s + 1 := roundNearestEven_le a s
      _ ≤ b / 2 ^ s := hlt
      _ ≤ roundNearestEven b s := roundNearestEven_ge b s
  · have heq : a / 2 ^ s = b / 2 ^ s := le_antisymm hq hge
    have ha : a / 2 ^ s * 2 ^ s ≤ a := Nat.div_mul_le_self a _
    simp only [roundNearestEven, Nat.shiftRight_eq_div_pow, Nat.shiftLeft_eq, heq]
    rw [heq] at ha
    split_ifs with h1 h2 h2
    · exact le_refl _
    · exfalso
      apply h2
      rcases h1 with h1 | ⟨h1, h1o⟩
      · left; omega
      · rcases Nat.lt_or_ge (1 * 2 ^ (s - 1)) (b - b / 2 ^ s * 2 ^ s) with h3 | h3
        · left; exact h3
        · right; exact ⟨by omega, h1o⟩
    · omega
    · exact le_refl _

theorem roundShift_mono (a b : Nat) (hb : b < 2 ^ 4096) (h : a ≤ b) :
    roundShift a ≤ roundShift b := by
  have := bitLen_mono a b hb h
  simp only [roundShift]
  omega

theorem pow2100_lt : (2 : Nat) ^ 2100 < 2 ^ 4096 := Nat.pow_lt_pow_right (by norm_num) (by norm_num)

/-- Below `2 ^ 2100` the kept bits fit in 53 bits plus a possible carry. -/
theorem quot_lt (T : Nat) (hT : T < 2 ^ 2100) : T / 2 ^ roundShift T < 2 ^ 53 := by
  obtain ⟨h1, _⟩ := bitLen_spec T (lt_trans hT pow2100_lt)
  rw [Nat.div_lt_iff_lt_mul (Nat.two_pow_pos _), ← pow_add]
  refine lt_of_lt_of_le h1 (Nat.pow_le_pow_right (by norm_num) ?_)
  simp only [roundShift]
  omega

theorem roundShift_le (T : Nat) (hT : T < 2 ^ 2100) : roundShift T ≤ 2047 := by
  obtain ⟨_, h2⟩ := bitLen_spec T (lt_trans hT pow2100_lt)
  have : bitLen T ≤ 2100 := by
    by_contra hc
    have hc : 2100 < bitLen T := not_le.mp hc
    have h0 : T ≠ 0 := by
      intro h0
      have : bitLen T = 0 := by rw [h0]; decide
      omega
    have := h2 h0
    have hle : 2 ^ 2100 ≤ 2 ^ (bitLen T - 1) := Nat.pow_le_pow_right (by norm_num) (by omega)
    omega
  simp only [roundShift]
  omega

/-- Above the smallest shift the kept bits are normalised: the top one is set. -/
theorem quot_ge (T : Nat) (hT : T < 2 ^ 2100) (hs : 2 < roundShift T) :
    2 ^ 52 ≤ T / 2 ^ roundShift T := by
  obtain ⟨_, h2⟩ := bitLen_spec T (lt_trans hT pow2100_lt)
  have hL : roundShift T = bitLen T - 53 := by
    simp only [roundShift] at hs ⊢
    omega
  have h0 : T ≠ 0 := by
    intro h0
    have : bitLen T = 0 := by rw [h0]; decide
    omega
  rw [Nat.le_div_iff_mul_le (Nat.two_pow_pos _), ← pow_add]
  refine le_trans (Nat.pow_le_pow_right (by norm_num) ?_) (h2 h0)
  omega

theorem roundMag_of_ge (T : Nat) (hT : 2 ^ 2100 ≤ T) : roundMag T = INF_MAG := by
  unfold roundMag
  rw [Nat.shiftLeft_eq, one_mul, if_pos hT]

theorem roundMag_of_lt (T : Nat) (hT : T < 2 ^ 2100) :
    roundMag T = (roundShift T - 2) * 2 ^ 52 + roundNearestEven T (roundShift T) := by
  unfold roundMag
  rw [Nat.shiftLeft_eq, one_mul, if_neg (not_le.mpr hT), Nat.shiftLeft_eq]

theorem roundMag_le_INF (T : Nat) : roundMag T ≤ INF_MAG := by
  rcases Nat.lt_or_ge T (2 ^ 2100) with hT | hT
  · rw [roundMag_of_lt T hT]
    have h1 := roundNearestEven_le T (roundShift T)
    have h2 := quot_lt T hT
    have h3 := roundShift_le T hT
    have h5 : (roundShift T - 2) * 2 ^ 52 ≤ 2045 * 2 ^ 52 := Nat.mul_le_mul_right _ (by omega)
    simp only [INF_MAG]
    norm_num at h2 h5 ⊢
    omega
  · rw [roundMag_of_ge T hT]

theorem roundMag_mono (a b : Nat) (h : a ≤ b) : roundMag a ≤ roundMag b := by
  rcases Nat.lt_or_ge b (2 ^ 2100) with hb | hb
  · have ha : a < 2 ^ 2100 := lt_of_le_of_lt h hb
    rw [roundMag_of_lt a ha, roundMag_of_lt b hb]
    have hs := roundShift_mono a b (lt_trans hb pow2100_lt) h
    have ha4 : 2 ≤ roundShift a := by simp [roundShift]
    rcases Nat.lt_or_ge (roundShift a) (roundShift b) with hlt | hge
    · have hk := quot_ge b hb (by omega)
      have hkb := roundNearestEven_ge b (roundShift b)
      have hka := roundNearestEven_le a (roundShift a)
      have hqa := quot_lt a ha
      have e1 : (roundShift b - 2) * 2 ^ 52 = (roundShift b - 3) * 2 ^ 52 + 2 ^ 52 := by
        have : roundShift b - 2 = (roundShift b - 3) + 1 := by omega
        rw [this, Nat.add_mul, one_mul]
      have e2 : (roundShift a - 2) * 2 ^ 52 ≤ (roundShift b - 3) * 2 ^ 52 :=
        Nat.mul_le_mul_right _ (by omega)
      norm_num at hk hqa e1 e2 ⊢
      omega
    · have heq : roundShift a = roundShift b := le_antisymm hs hge
      rw [heq]
      exact Nat.add_le_add_left (roundNearestEven_mono _ a b h) _
  · rw [roundMag_of_ge b hb]
    exact roundMag_le_INF a

/-! ### Facts about the order and the arithmetic of doubles -/

theorem Double.le_def (x y : Double) :
    x ≤ y ↔ (x.isNaN = false ∧ y.isNaN = false ∧ x.key ≤ y.key) := by
  show x.le y = true ↔ _
  simp [Double.le, and_assoc]

theorem Double.lt_def (x y : Double) :
    x < y ↔ (x.isNaN = false ∧ y.isNaN = false ∧ x.key < y.key) := by
  show x.lt y = true ↔ _
  simp [Double.lt, and_assoc]

theorem Double.not_lt_iff (x y : Double) (hx : x.isNaN = false) (hy : y.isNaN = false) :
    ¬ x < y ↔ y ≤ x := by
  rw [Double.lt_def, Double.le_def]
  simp [hx, hy]

theorem Double.not_le_iff (x y : Double) (hx : x.isNaN = false) (hy : y.isNaN = false) :
    ¬ x ≤ y ↔ y < x := by
  rw [Double.lt_def, Double.le_def]
  simp [hx, hy]

theorem Double.isNaN_zero : (0 : Double).isNaN = false := by decide

theorem Double.key_zero : (0 : Double).key = 0 := by decide

theorem Double.isNaN_thousand : (1000 : Double).isNaN = false := by decide

theorem Double.isNaN_nan : Double.nan.isNaN = true := by decide

theorem Double.isNaN_of_isFinite (x : Double) (h : x.isFinite = true) : x.isNaN = false := by
  simp only [Double.isFinite, Double.isNaN, decide_eq_true_eq, decide_eq_false_iff_not] at h ⊢
  omega

theorem Double.isInf_of_isFinite (x : Double) (h : x.isFinite = true) : x.isInf = false := by
  simp only [Double.isFinite, Double.isInf, decide_eq_true_eq, decide_eq_false_iff_not] at h ⊢
  omega

theorem Double.isNaN_negate (x : Double) : (Double.negate x).isNaN = x.isNaN := rfl

theorem Double.isInf_negate (x : Double) : (Double.negate x).isInf = x.isInf := rfl

theorem Double.isFinite_negate (x : Double) : (Double.negate x).isFinite = x.isFinite := rfl

theorem Double.qunits_negate (x : Double) : (Double.negate x).qunits = x.qunits := rfl

theorem Double.sunits_negate (x : Double) : (Double.negate x).sunits = -x.sunits := by
  cases hx : x.neg <;> simp [Double.sunits, Double.negate, Double.qunits, hx]

theorem Double.sub_def (x y : Double) : x - y = x + Double.negate y := rfl

theorem Double.add_def (x y : Double) : x + y = Double.add x y := rfl

theorem Double.isNaN_ofMag (neg : Bool) (m : Nat) : (Double.ofMag neg m).isNaN = false := by
  simp only [Double.isNaN, Double.ofMag, decide_eq_false_iff_not, not_lt]
  exact Nat.min_le_right _ _

theorem Double.isNaN_round (neg : Bool) (T : Nat) : (Double.round neg T).isNaN = false :=
  Double.isNaN_ofMag neg _

/-- A sum that is a number has summands that are numbers. -/
theorem Double.isNaN_of_add (x y : Double) (h : (x + y).isNaN = false) :
    x.isNaN = false ∧ y.isNaN = false := by
  rw [Double.add_def, Double.add] at h
  by_cases hn : (x.isNaN || y.isNaN) = true
  · rw [if_pos hn, Double.isNaN_nan] at h
    exact absurd h (by decide)
  · simpa using hn

/-- The sum of two finite doubles is a number. -/
theorem Double.isNaN_add_finite (x y : Double) (hx : x.isFinite = true) (hy : y.isFinite = true) :
    (x + y).isNaN = false := by
  rw [Double.add_def, Double.add]
  simp only [Double.isNaN_of_isFinite x hx, Double.isNaN_of_isFinite y hy,
    Double.isInf_of_isFinite x hx, Double.isInf_of_isFinite y hy, Bool.or_self,
    Bool.false_eq_true, if_false]
  split_ifs
  · simp [Double.isNaN]
  · exact Double.isNaN_round _ _

/-- The sum of a number and a finite double is a number. -/
theorem Double.isNaN_add_of_finite_right (x y : Double) (hx : x.isNaN = false)
    (hy : y.isFinite = true) : (x + y).isNaN = false := by
  rw [Double.add_def, Double.add]
  simp only [hx, Double.isNaN_of_isFinite y hy, Double.isInf_of_isFinite y hy, Bool.or_self,
    Bool.false_eq_true, if_false, Bool.false_and]
  split_ifs
  · exact hx
  · simp [Double.isNaN]
  · exact Double.isNaN_round _ _

theorem Double.isNaN_sub_finite (x y : Double) (hx : x.isFinite = true) (hy : y.isFinite = true) :
    (x - y).isNaN = false :=
  Double.isNaN_add_finite x (Double.negate y) hx hy

theorem Double.isNaN_of_sub (x y : Double) (h : (x - y).isNaN = false) :
    x.isNaN = false ∧ y.isNaN = false :=
  Double.isNaN_of_add x (Double.negate y) h

/-- A double that is not `<= 0` and is a number is `> 0`: its sign bit is clear and some
other bit is set. -/
theorem Double.pos_iff (x : Double) : 0 < x ↔ (x.isNaN = false ∧ x.neg = false ∧ 0 < x.mag.val) := by
  rw [Double.lt_def, Double.key_zero]
  simp only [Double.isNaN_zero, true_and, Double.key]
  constructor
  · rintro ⟨h1, h2⟩
    cases hn : x.neg
    · simp only [hn, Bool.false_eq_true, if_false] at h2
      exact ⟨h1, rfl, by exact_mod_cast h2⟩
    · simp only [hn, if_true] at h2
      omega
  · rintro ⟨h1, h2, h3⟩
    simp only [h2, Bool.false_eq_true, if_false]
    exact ⟨h1, by exact_mod_cast h3⟩

/-- The exact magnitude grows with the magnitude bits. -/
theorem Double.qunits_mono (x y : Double) (h : x.mag.val ≤ y.mag.val) : x.qunits ≤ y.qunits := by
  simp only [Double.qunits, Nat.shiftLeft_eq]
  have hq : x.mag.val / 4503599627370496 ≤ y.mag.val / 4503599627370496 :=
    Nat.div_le_div_right h
  have hx := Nat.div_add_mod x.mag.val 4503599627370496
  have hy := Nat.div_add_mod y.mag.val 4503599627370496
  have hmx : x.mag.val % 4503599627370496 < 4503599627370496 := Nat.mod_lt _ (by norm_num)
  have hmy : y.mag.val % 4503599627370496 < 4503599627370496 := Nat.mod_lt _ (by norm_num)
  rcases Nat.lt_or_ge (x.mag.val / 4503599627370496) (y.mag.val / 4503599627370496) with hlt | hge
  · have hy0 : y.mag.val / 4503599627370496 ≠ 0 := by omega
    rw [if_neg hy0]
    have hpow : 2 ^ (x.mag.val / 4503599627370496 + 2) ≤ 2 ^ (y.mag.val / 4503599627370496 + 1) :=
      Nat.pow_le_pow_right (by norm_num) (by omega)
    have hbig : 4503599627370496 * 2 ^ (y.mag.val / 4503599627370496 + 1)
        ≤ (4503599627370496 + y.mag.val % 4503599627370496)
          * 2 ^ (y.mag.val / 4503599627370496 + 1) :=
      Nat.mul_le_mul_right _ (by omega)
    have hmid : 4503599627370496 * 2 ^ (x.mag.val / 4503599627370496 + 2)
        ≤ 4503599627370496 * 2 ^ (y.mag.val / 4503599627370496 + 1) :=
      Nat.mul_le_mul_left _ hpow
    refine le_trans ?_ (le_trans hmid hbig)
    split_ifs with hx0
    · rw [hx0]
      norm_num
      omega
    · have : (4503599627370496 + x.mag.val % 4503599627370496)
          * 2 ^ (x.mag.val / 4503599627370496 + 1)
          ≤ (2 * 4503599627370496) * 2 ^ (x.mag.val / 4503599627370496 + 1) :=
        Nat.mul_le_mul_right _ (by omega)
      refine le_trans this (le_of_eq ?_)
      rw [pow_succ (2 : Nat) (x.mag.val / 4503599627370496 + 1)]
      ring
  · have heq : x.mag.val / 4503599627370496 = y.mag.val / 4503599627370496 :=
      le_antisymm hq hge
    have hm : x.mag.val % 4503599627370496 ≤ y.mag.val % 4503599627370496 := by omega
    rw [heq]
    split_ifs
    · exact Nat.mul_le_mul_right _ hm
    · exact Nat.mul_le_mul_right _ (by omega)

/-- A double with some magnitude bit set has a positive exact magnitude. -/
theorem Double.qunits_pos (x : Double) (h : 0 < x.mag.val) : 0 < x.qunits := by
  simp only [Double.qunits, Nat.shiftLeft_eq]
  have hx := Nat.div_add_mod x.mag.val 4503599627370496
  split_ifs with h0
  · have : 0 < x.mag.val % 4503599627370496 := by
      rw [h0] at hx
      omega
    positivity
  · positivity

/-- A finite double minus itself is `+0`. -/
theorem Double.sub_self_finite (x : Double) (hx : x.isFinite = true) (hpos : 0 < x) :
    x - x = 0 := by
  have hneg := ((Double.pos_iff x).mp hpos).2.1
  rw [Double.sub_def, Double.add_def, Double.add]
  simp only [Double.isNaN_negate, Double.isNaN_of_isFinite x hx, Double.isInf_negate,
    Double.isInf_of_isFinite x hx, Bool.or_self, Bool.false_eq_true, if_false,
    Double.sunits_negate, add_neg_cancel, if_true, hneg, Bool.false_and]
  decide

/-- The exact value of a non-negative double whose magnitude is a whole number. -/
theorem Double.toRat_of_qunits (d : Double) (n : Nat) (hneg : d.neg = false)
    (hq : d.qunits = n <<< 1076) : d.toRat = (n : ℚ) := by
  simp only [Double.toRat, Double.sunits, hneg, hq, Nat.shiftLeft_eq, Bool.false_eq_true,
    if_false]
  push_cast
  field_simp

/-- The exact magnitude grows strictly with the magnitude bits. -/
theorem Double.qunits_strict_mono (x y : Double) (h : x.mag.val < y.mag.val) :
    x.qunits < y.qunits := by
  simp only [Double.qunits, Nat.shiftLeft_eq]
  have hq : x.mag.val / 4503599627370496 ≤ y.mag.val / 4503599627370496 :=
    Nat.div_le_div_right (le_of_lt h)
  have hx := Nat.div_add_mod x.mag.val 4503599627370496
  have hy := Nat.div_add_mod y.mag.val 4503599627370496
  have hmx : x.mag.val % 4503599627370496 < 4503599627370496 := Nat.mod_lt _ (by norm_num)
  have hmy : y.mag.val % 4503599627370496 < 4503599627370496 := Nat.mod_lt _ (by norm_num)
  rcases Nat.lt_or_ge (x.mag.val / 4503599627370496) (y.mag.val / 4503599627370496) with hlt | hge
  · have hy0 : y.mag.val / 4503599627370496 ≠ 0 := by omega
    rw [if_neg hy0]
    have hpow : 2 ^ (x.mag.val / 4503599627370496 + 2) ≤ 2 ^ (y.mag.val / 4503599627370496 + 1) :=
      Nat.pow_le_pow_right (by norm_num) (by omega)
    have hbig : 4503599627370496 * 2 ^ (y.mag.val / 4503599627370496 + 1)
        ≤ (4503599627370496 + y.mag.val % 4503599627370496)
          * 2 ^ (y.mag.val / 4503599627370496 + 1) :=
      Nat.mul_le_mul_right _ (by omega)
    have hmid : 4503599627370496 * 2 ^ (x.mag.val / 4503599627370496 + 2)
        ≤ 4503599627370496 * 2 ^ (y.mag.val / 4503599627370496 + 1) :=
      Nat.mul_le_mul_left _ hpow
    refine lt_of_lt_of_le ?_ (le_trans hmid hbig)
    split_ifs with hx0
    · rw [hx0]
      norm_num
      omega
    · have hp : 0 < 2 ^ (x.mag.val / 4503599627370496 + 1) := Nat.two_pow_pos _
      have : (4503599627370496 + x.mag.val % 4503599627370496)
          * 2 ^ (x.mag.val / 4503599627370496 + 1)
          < (2 * 4503599627370496) * 2 ^ (x.mag.val / 4503599627370496 + 1) :=
        Nat.mul_lt_mul_of_pos_right (by omega) hp
      refine lt_of_lt_of_le this (le_of_eq ?_)
      rw [pow_succ (2 : Nat) (x.mag.val / 4503599627370496 + 1)]
      ring
  · have heq : x.mag.val / 4503599627370496 = y.mag.val / 4503599627370496 :=
      le_antisymm hq hge
    have hm : x.mag.val % 4503599627370496 < y.mag.val % 4503599627370496 := by omega
    rw [heq]
    split_ifs
    · exact Nat.mul_lt_mul_of_pos_right hm (by norm_num)
    · exact Nat.mul_lt_mul_of_pos_right (by omega) (Nat.two_pow_pos _)

/-- The magnitude bits and the exact magnitude are ordered alike. -/
theorem Double.mag_lt_iff (x y : Double) : x.mag.val < y.mag.val ↔ x.qunits < y.qunits := by
  constructor
  · exact Double.qunits_strict_mono x y
  · intro h
    by_contra hc
    have := Double.qunits_mono y x (not_lt.mp hc)
    omega

/-- Only the two zeros have exact magnitude 0. -/
theorem Double.qunits_eq_zero (x : Double) : x.qunits = 0 ↔ x.mag.val = 0 := by
  constructor
  · intro h
    by_contra hc
    have := Double.qunits_pos x (Nat.pos_of_ne_zero hc)
    omega
  · intro h
    simp [Double.qunits, h]

/-- The order of the bit patterns is the order of the exact values. -/
theorem Double.key_lt_iff (x y : Double) : x.key < y.key ↔ x.sunits < y.sunits := by
  have h1 := Double.mag_lt_iff x y
  have h2 := Double.mag_lt_iff y x
  have zx := Double.qunits_eq_zero x
  have zy := Double.qunits_eq_zero y
  cases hx : x.neg <;> cases hy : y.neg <;>
    simp only [Double.key, Double.sunits, hx, hy, Bool.false_eq_true, if_false, if_true] <;>
    omega

/-- The comparison `<` of finite doubles is the comparison of their exact values. -/
theorem Double.lt_iff_toRat (x y : Double) (hx : x.isFinite = true) (hy : y.isFinite = true) :
    x < y ↔ x.toRat < y.toRat := by
  rw [Double.lt_def, Double.key_lt_iff]
  simp only [Double.isNaN_of_isFinite x hx, Double.isNaN_of_isFinite y hy, true_and,
    Double.toRat]
  rw [div_lt_div_iff_of_pos_right (by positivity)]
  exact Int.cast_lt.symm

/-- The comparison `<=` of finite doubles is the comparison of their exact values. -/
theorem Double.le_iff_toRat (x y : Double) (hx : x.isFinite = true) (hy : y.isFinite = true) :
    x ≤ y ↔ x.toRat ≤ y.toRat := by
  have h := Double.lt_iff_toRat y x hy hx
  rw [← Double.not_lt_iff y x (Double.isNaN_of_isFinite y hy) (Double.isNaN_of_isFinite x hx), h]
  exact not_lt

/-- Some values of the model against their IEEE 754 bit patterns: 1000, 0.1, 0.1 + 0.2, the
largest finite double, the smallest positive double, and 1 - 1. -/
theorem Double.known_bits :
    (1000 : Double).bits = 0x408F400000000000 ∧
    (Double.ofDecimal false 1 (-1)).bits = 0x3FB999999999999A ∧
    (Double.ofDecimal false 1 (-1) + Double.ofDecimal false 2 (-1)).bits = 0x3FD3333333333334 ∧
    (Double.ofDecimal false 17976931348623157 292).bits = 0x7FEFFFFFFFFFFFFF ∧
    (Double.ofDecimal false 5 (-324)).bits = 1 ∧
    ((1 : Double) - 1).bits = 0 ∧
    (Double.negate 1 + 1).bits = 0 ∧
    (Double.inf false - Double.inf false).isNaN = true := by
  decide

/-! ## Withdrawals -/

/-- C1, counterexample: a savings account holds exactly 1000 and the user withdraws `1e-14`.
The amount is positive and the exact difference is below 1000, yet the difference computed in
`double` rounds to 1000, the call returns true and the balance stays 1000. And a withdrawal of
NaN, which is not `> 0`, returns true as well. -/
theorem savings_withdraw_rounds :
    (1000 : Double).toRat = 1000 ∧
    0 < (Double.ofDecimal false 1 (-14)).toRat ∧
    ¬ (1000 ≤ (1000 : Double).toRat - (Double.ofDecimal false 1 (-14)).toRat) ∧
    SavingsAccount.withdraw { balance := 1000 } (Double.ofDecimal false 1 (-14))
      = (true, { balance := 1000 },
          [Msg.withdrawn (Double.ofDecimal false 1 (-14)) 1000]) ∧
    ¬ (0 < Double.nan) ∧
    (SavingsAccount.withdraw { balance := 2000 } Double.nan).1 = true := by
  have hw : 0 < (Double.ofDecimal false 1 (-14)).sunits := by decide
  have hB : (1000 : Double).toRat = 1000 := by
    simpa using Double.toRat_of_qunits 1000 1000 (by decide) (by decide)
  have hW : 0 < (Double.ofDecimal false 1 (-14)).toRat := by
    rw [Double.toRat]
    exact div_pos (by exact_mod_cast hw) (by positivity)
  refine ⟨hB, hW, ?_, by decide, by decide, by decide⟩
  rw [hB]
  linarith

/-- C1, amended: on a savings account holding `B`, whenever `withdraw(W)` returns true the new
balance is the `double` difference `B - W` (the exact difference rounded to the nearest
double); and when that difference is a number, in particular for all finite `B` and `W`,
`withdraw(W)` returns true exactly when `W > 0` and the `double` difference is `>= 1000`. -/
theorem savings_withdraw_iff (B W : Double) :
    ((SavingsAccount.withdraw { balance := B } W).1 = true →
      (SavingsAccount.withdraw { balance := B } W).2.1.balance = B - W) ∧
    ((B - W).isNaN = false →
      ((SavingsAccount.withdraw { balance := B } W).1 = true ↔ (0 < W ∧ 1000 ≤ B - W))) ∧
    (B.isFinite = true → W.isFinite = true → (B - W).isNaN = false) := by
  refine ⟨?_, ?_, Double.isNaN_sub_finite B W⟩
  · unfold SavingsAccount.withdraw
    split_ifs <;> simp
  · intro hnan
    have hW := (Double.isNaN_of_sub B W hnan).2
    unfold SavingsAccount.withdraw SavingsAccount.MIN_BALANCE
    by_cases h1 : W ≤ 0
    · have : ¬ 0 < W := fun h => (Double.not_le_iff W 0 hW Double.isNaN_zero).mpr h h1
      simp [h1, this]
    · have hpos : 0 < W := (Double.not_le_iff W 0 hW Double.isNaN_zero).mp h1
      by_cases h2 : B - W < 1000
      · have : ¬ 1000 ≤ B - W :=
          fun h => (Double.not_lt_iff (B - W) 1000 hnan Double.isNaN_thousand).mpr h h2
        simp [h1, h2, this]
      · have := (Double.not_lt_iff (B - W) 1000 hnan Double.isNaN_thousand).mp h2
        simp [h1, h2, hpos, this]

/-- Savings scenario of C1: from 2000, withdrawing 500 succeeds and leaves 1500. -/
theorem savings_withdraw_iff_witness :
    ((2000 : Double) - 500).isNaN = false ∧
    (SavingsAccount.withdraw { balance := 2000 } 500).1 = true ∧
    (SavingsAccount.withdraw { balance := 2000 } 500).2.1.balance = 2000 - 500 ∧
    (2000 : Double) - 500 = 1500 :=
  have hn : ((2000 : Double) - 500).isNaN = false :=
    (savings_withdraw_iff 2000 500).2.2 (by decide) (by decide)
  have h : (SavingsAccount.withdraw { balance := 2000 } 500).1 = true :=
    ((savings_withdraw_iff 2000 500).2.1 hn).mpr (by decide)
  ⟨hn, h, (savings_withdraw_iff 2000 500).1 h, by decide⟩

/-- C2, counterexample: a current account holds `2 ^ 54` and the user withdraws 1. The call
returns true and the balance is still `2 ^ 54`, which is not the exact difference. And a
withdrawal of NaN, which is not `> 0`, returns true as well. -/
theorem current_withdraw_rounds :
    (18014398509481984 : Double).toRat = 18014398509481984 ∧
    (1 : Double).toRat = 1 ∧
    CurrentAccount.withdraw { balance := 18014398509481984 } 1
      = (true, { balance := 18014398509481984 }, [Msg.withdrawn 1 18014398509481984]) ∧
    (CurrentAccount.withdraw { balance := 18014398509481984 } 1).2.1.balance.toRat
      ≠ (18014398509481984 : Double).toRat - (1 : Double).toRat ∧
    ¬ (0 < Double.nan) ∧
    (CurrentAccount.withdraw { balance := 3000 } Double.nan).1 = true := by
  have hB : (18014398509481984 : Double).toRat = 18014398509481984 := by
    simpa using Double.toRat_of_qunits 18014398509481984 18014398509481984 (by decide) (by decide)
  have hW : (1 : Double).toRat = 1 := by
    simpa using Double.toRat_of_qunits 1 1 (by decide) (by decide)
  have hrun : CurrentAccount.withdraw { balance := 18014398509481984 } 1
      = (true, { balance := 18014398509481984 }, [Msg.withdrawn 1 18014398509481984]) := by
    decide
  refine ⟨hB, hW, hrun, ?_, by decide, by decide⟩
  rw [hrun, hB, hW]
  norm_num

/-- C2, amended: on a current account holding `B`, whenever `withdraw(W)` returns true the new
balance is the `double` difference `B - W`; when that difference is a number, in particular
for all finite `B` and `W`, `withdraw(W)` returns true exactly when `W > 0` and the `double`
difference is `>= 0`; and withdrawing a finite positive balance in full succeeds and leaves
0. -/
theorem current_withdraw_iff (B W : Double) :
    ((CurrentAccount.withdraw { balance := B } W).1 = true →
      (CurrentAccount.withdraw { balance := B } W).2.1.balance = B - W) ∧
    ((B - W).isNaN = false →
      ((CurrentAccount.withdraw { balance := B } W).1 = true ↔ (0 < W ∧ 0 ≤ B - W))) ∧
    (B.isFinite = true → W.isFinite = true → (B - W).isNaN = false) ∧
    (B.isFinite = true → 0 < B →
      CurrentAccount.withdraw { balance := B } B = (true, { balance := 0 }, [Msg.withdrawn B 0])) := by
  refine ⟨?_, ?_, Double.isNaN_sub_finite B W, ?_⟩
  · unfold CurrentAccount.withdraw
    split_ifs <;> simp
  · intro hnan
    have hW := (Double.isNaN_of_sub B W hnan).2
    unfold CurrentAccount.withdraw
    by_cases h1 : W ≤ 0
    · have : ¬ 0 < W := fun h => (Double.not_le_iff W 0 hW Double.isNaN_zero).mpr h h1
      simp [h1, this]
    · have hpos : 0 < W := (Double.not_le_iff W 0 hW Double.isNaN_zero).mp h1
      by_cases h2 : B - W < 0
      · have : ¬ 0 ≤ B - W :=
          fun h => (Double.not_lt_iff (B - W) 0 hnan Double.isNaN_zero).mpr h h2
        simp [h1, h2, this]
      · have := (Double.not_lt_iff (B - W) 0 hnan Double.isNaN_zero).mp h2
        simp [h1, h2, hpos, this]
  · intro hfin hpos
    have hnan := Double.isNaN_of_isFinite B hfin
    have hsub : B - B = 0 := Double.sub_self_finite B hfin hpos
    have h1 : ¬ B ≤ 0 := (Double.not_le_iff B 0 hnan Double.isNaN_zero).mpr hpos
    have h2 : ¬ (0 : Double) < 0 := by decide
    simp [CurrentAccount.withdraw, h1, hsub, h2]

/-- Current scenario of C2: from 3000, withdrawing 3000 succeeds and leaves 0. -/
theorem current_withdraw_iff_witness :
    ((3000 : Double) - 3000).isNaN = false ∧
    (CurrentAccount.withdraw { balance := 3000 } 3000).1 = true ∧
    (CurrentAccount.withdraw { balance := 3000 } 3000).2.1.balance = 3000 - 3000 ∧
    CurrentAccount.withdraw { balance := 3000 } 3000
      = (true, { balance := 0 }, [Msg.withdrawn 3000 0]) :=
  have hn : ((3000 : Double) - 3000).isNaN = false :=
    (current_withdraw_iff 3000 3000).2.2.1 (by decide) (by decide)
  have h : (CurrentAccount.withdraw { balance := 3000 } 3000).1 = true :=
    ((current_withdraw_iff 3000 3000).2.1 hn).mpr (by decide)
  ⟨hn, h, (current_withdraw_iff 3000 3000).1 h,
    (current_withdraw_iff 3000 3000).2.2.2 (by decide) (by decide)⟩

/-- C4: for either variant, a `withdraw(W)` call that returns false leaves the object, and so
its balance, exactly as it was. -/
theorem withdraw_false_unchanged (acct : BankAccount) (W : Double)
    (h : (acct.withdraw W).1 = false) :
    (acct.withdraw W).2.1 = acct ∧ (acct.withdraw W).2.1.balance = acct.balance := by
  have key : (acct.withdraw W).2.1 = acct := by
    cases acct with
    | savings a =>
      simp only [BankAccount.withdraw, SavingsAccount.withdraw] at h ⊢
      split_ifs at h ⊢ <;> simp_all
    | current a =>
      simp only [BankAccount.withdraw, CurrentAccount.withdraw] at h ⊢
      split_ifs at h ⊢ <;> simp_all
  exact ⟨key, by rw [key]⟩

/-- Scenarios of C4: savings at 1500 refuses 600 and stays at 1500; current at 0 refuses 1 and
stays at 0. -/
theorem withdraw_false_unchanged_witness :
    ((BankAccount.savings { balance := 1500 }).withdraw 600).1 = false ∧
    ((BankAccount.savings { balance := 1500 }).withdraw 600).2.1.balance = 1500 ∧
    ((BankAccount.current { balance := 0 }).withdraw 1).1 = false ∧
    ((BankAccount.current { balance := 0 }).withdraw 1).2.1.balance = 0 :=
  have hs : ((BankAccount.savings { balance := 1500 }).withdraw 600).1 = false := by decide
  have hc : ((BankAccount.current { balance := 0 }).withdraw 1).1 = false := by decide
  ⟨hs, (withdraw_false_unchanged _ 600 hs).2, hc, (withdraw_false_unchanged _ 1 hc).2⟩

/-! ## Deposits -/

/-- C5: for either variant and every amount `A <= 0`, zero included, `deposit(A)` leaves the
object as it was and writes the invalid-deposit message, nothing else. -/
theorem deposit_nonpos (acct : BankAccount) (A : Double) (h : A ≤ 0) :
    acct.deposit A = (acct, [Msg.invalidDeposit]) ∧ (acct.deposit A).1.balance = acct.balance := by
  have key : acct.deposit A = (acct, [Msg.invalidDeposit]) := by
    cases acct with
    | savings a => simp [BankAccount.deposit, SavingsAccount.deposit, h]
    | current a => simp [BankAccount.deposit, CurrentAccount.deposit, h]
  exact ⟨key, by rw [key]⟩

/-- Scenarios of C5: depositing 0 into savings and -5 into current. -/
theorem deposit_nonpos_witness :
    (BankAccount.savings { balance := 2000 }).deposit 0
      = (BankAccount.savings { balance := 2000 }, [Msg.invalidDeposit]) ∧
    (BankAccount.current { balance := 3000 }).deposit (Double.negate 5)
      = (BankAccount.current { balance := 3000 }, [Msg.invalidDeposit]) :=
  ⟨(deposit_nonpos _ 0 (by decide)).1, (deposit_nonpos _ (Double.negate 5) (by decide)).1⟩

/-- C6, counterexample: an account of either variant holds `2 ^ 53` and the user deposits 1.
The balance afterwards is still `2 ^ 53`, which is not the exact sum. -/
theorem deposit_rounds :
    (9007199254740992 : Double).toRat = 9007199254740992 ∧
    (1 : Double).toRat = 1 ∧
    (0 : Double) < 1 ∧
    SavingsAccount.deposit { balance := 9007199254740992 } 1
      = ({ balance := 9007199254740992 }, [Msg.deposited 1 9007199254740992]) ∧
    CurrentAccount.deposit { balance := 9007199254740992 } 1
      = ({ balance := 9007199254740992 }, [Msg.deposited 1 9007199254740992]) ∧
    (SavingsAccount.deposit { balance := 9007199254740992 } 1).1.balance.toRat
      ≠ (9007199254740992 : Double).toRat + (1 : Double).toRat := by
  have hB : (9007199254740992 : Double).toRat = 9007199254740992 := by
    simpa using Double.toRat_of_qunits 9007199254740992 9007199254740992 (by decide) (by decide)
  have hW : (1 : Double).toRat = 1 := by
    simpa using Double.toRat_of_qunits 1 1 (by decide) (by decide)
  have hrun : SavingsAccount.deposit { balance := 9007199254740992 } 1
      = ({ balance := 9007199254740992 }, [Msg.deposited 1 9007199254740992]) := by
    decide
  refine ⟨hB, hW, by decide, hrun, by decide, ?_⟩
  rw [hrun, hB, hW]
  norm_num

/-- C6, amended: for every balance `B` and amount `A > 0`, `deposit(A)` sets the balance to
the `double` sum `B + A` (the exact sum rounded to the nearest double) on both variants; and
for every `B` and `A` whatsoever the two implementations yield the same balance and write the
same text. -/
theorem deposit_pos_same (B A : Double) :
    (0 < A →
      (SavingsAccount.deposit { balance := B } A).1.balance = B + A ∧
      (CurrentAccount.deposit { balance := B } A).1.balance = B + A) ∧
    (SavingsAccount.deposit { balance := B } A).1.balance
      = (CurrentAccount.deposit { balance := B } A).1.balance ∧
    (SavingsAccount.deposit { balance := B } A).2 = (CurrentAccount.deposit { balance := B } A).2 := by
  unfold SavingsAccount.deposit CurrentAccount.deposit
  by_cases hA : A ≤ 0
  · have : ¬ 0 < A := by
      intro h
      rw [Double.lt_def] at h
      rw [Double.le_def] at hA
      omega
    simp [hA, this]
  · simp [hA]

/-- Instance of C6: depositing 250 into either account holding 2000 gives 2250. -/
theorem deposit_pos_same_witness :
    (SavingsAccount.deposit { balance := 2000 } 250).1.balance = 2000 + 250 ∧
    (CurrentAccount.deposit { balance := 2000 } 250).1.balance = 2000 + 250 :=
  (deposit_pos_same 2000 250).1 (by decide)

/-! ## Balance enquiry -/

/-- C10: for either variant, `checkBalance` returns the balance and leaves the object as it
was; any number of consecutive calls return that same value each time, and a deposit or
withdrawal made afterwards behaves exactly as it would have without them. -/
theorem checkBalance_pure (acct : BankAccount) (n : Nat) (A : Double) :
    acct.checkBalance = (acct.balance, acct) ∧
    acct.checkBalanceTimes n = (List.replicate n acct.balance, acct) ∧
    (acct.checkBalanceTimes n).2.deposit A = acct.deposit A ∧
    (acct.checkBalanceTimes n).2.withdraw A = acct.withdraw A := by
  have one : ∀ a : BankAccount, a.checkBalance = (a.balance, a) := by
    intro a
    cases a <;> rfl
  have many : acct.checkBalanceTimes n = (List.replicate n acct.balance, acct) := by
    induction n with
    | zero => rfl
    | succ k ih => simp [BankAccount.checkBalanceTimes, one, ih, List.replicate_succ]
  exact ⟨one acct, many, by rw [many], by rw [many]⟩

/-! ## Balance floors -/

/-- The sum of a number `B` and a finite positive `A`, when `B` is not an infinity: the exact
sum rounded. -/
theorem Double.add_pos_finite (B A : Double) (hB : B.isNaN = false) (hBn : B.neg = false)
    (hBi : B.isInf = false) (hA : A.isFinite = true) (hpos : 0 < A) :
    B + A = Double.round false (B.qunits + A.qunits) := by
  obtain ⟨hAn, hAneg, hAmag⟩ := (Double.pos_iff A).mp hpos
  have hq := Double.qunits_pos A hAmag
  rw [Double.add_def, Double.add]
  simp only [hB, hAn, hBi, Double.isInf_of_isFinite A hA, Bool.or_self, Bool.false_eq_true,
    if_false, Double.sunits, hBn, hAneg]
  have hs : ((B.qunits : Int) + (A.qunits : Int)) ≠ 0 := by omega
  have hlt : ¬ ((B.qunits : Int) + (A.qunits : Int)) < 0 := by omega
  rw [if_neg hs]
  have hab : ((B.qunits : Int) + (A.qunits : Int)).natAbs = B.qunits + A.qunits := by omega
  simp [hlt, hab]

/-- Adding a finite positive amount to a balance of at least 1000 gives at least 1000. -/
theorem Double.thousand_le_add (B A : Double) (hB : 1000 ≤ B) (hA : A.isFinite = true)
    (hpos : 0 < A) : 1000 ≤ B + A := by
  have hk : (1000 : Double).key = 4652007308841189376 := by decide
  have hq : (1000 : Double).qunits = 1000 <<< 1076 := by decide
  have hr : Double.roundMag (1000 <<< 1076) = 4652007308841189376 := by decide
  have hm : (1000 : Double).mag.val = 4652007308841189376 := by decide
  obtain ⟨_, hBn, hBk⟩ := (Double.le_def 1000 B).mp hB
  rw [hk] at hBk
  have hBneg : B.neg = false := by
    cases hn : B.neg
    · rfl
    · simp only [Double.key, hn, if_true] at hBk
      omega
  have hBmag : 4652007308841189376 ≤ B.mag.val := by
    simp only [Double.key, hBneg, Bool.false_eq_true, if_false] at hBk
    exact_mod_cast hBk
  by_cases hBi : B.isInf = true
  · have : B + A = B := by
      rw [Double.add_def, Double.add]
      simp [hBn, Double.isNaN_of_isFinite A hA, hBi, Double.isInf_of_isFinite A hA]
    rw [this]
    exact hB
  · have hBi : B.isInf = false := by simpa using hBi
    rw [Double.add_pos_finite B A hBn hBneg hBi hA hpos, Double.le_def]
    refine ⟨Double.isNaN_thousand, Double.isNaN_round _ _, ?_⟩
    rw [hk]
    have h1 : (1000 : Double).qunits ≤ B.qunits := Double.qunits_mono 1000 B (by rw [hm]; exact hBmag)
    have h2 : Double.roundMag (1000 <<< 1076) ≤ Double.roundMag (B.qunits + A.qunits) :=
      roundMag_mono _ _ (by rw [← hq]; omega)
    rw [hr] at h2
    simp only [Double.key, Double.round, Double.ofMag, Bool.false_eq_true, if_false]
    have h3 : (4652007308841189376 : Nat) ≤ Double.INF_MAG := by decide
    have : (4652007308841189376 : Nat)
        ≤ min (Double.roundMag (B.qunits + A.qunits)) Double.INF_MAG := le_min h2 h3
    exact_mod_cast this

/-- Adding a finite positive amount to a balance of at least 0 gives at least 0. -/
theorem Double.zero_le_add (B A : Double) (hB : 0 ≤ B) (hA : A.isFinite = true)
    (hpos : 0 < A) : 0 ≤ B + A := by
  obtain ⟨hAn, hAneg, hAmag⟩ := (Double.pos_iff A).mp hpos
  have hq := Double.qunits_pos A hAmag
  obtain ⟨_, hBn, hBk⟩ := (Double.le_def 0 B).mp hB
  rw [Double.key_zero] at hBk
  have hs : 0 ≤ B.sunits := by
    cases hn : B.neg
    · simp [Double.sunits, hn]
    · simp only [Double.key, hn, if_true] at hBk
      have h0 : B.mag.val = 0 := by omega
      have : B.qunits = 0 := by simp [Double.qunits, h0]
      simp [Double.sunits, hn, this]
  rw [Double.le_def]
  refine ⟨Double.isNaN_zero, Double.isNaN_add_of_finite_right B A hBn hA, ?_⟩
  rw [Double.key_zero, Double.add_def, Double.add]
  simp only [hBn, hAn, Double.isInf_of_isFinite A hA, Bool.or_self, Bool.false_eq_true,
    if_false, Bool.false_and]
  have hsA : A.sunits = (A.qunits : Int) := by simp [Double.sunits, hAneg]
  split_ifs with h1 h2
  · exact hBk
  · omega
  · have hlt : ¬ (B.sunits + A.sunits < 0) := by omega
    simp [Double.key, Double.round, Double.ofMag, hlt]

/-- A single call with a finite amount keeps the savings balance at or above 1000 and the
current balance at or above 0. -/
theorem call_keeps_floors (bank : Bank) (c : Call)
    (hfin : ∀ a, c.amount = some a → a.isFinite = true)
    (h : 1000 ≤ bank.savings.balance ∧ 0 ≤ bank.current.balance) :
    1000 ≤ (bank.call c).savings.balance ∧ 0 ≤ (bank.call c).current.balance := by
  obtain ⟨hs, hc⟩ := h
  cases c with
  | deposit account amount =>
    have hA := hfin amount rfl
    have hAn := Double.isNaN_of_isFinite amount hA
    cases account
    · simp only [Bank.call, Bank.deposit, SavingsAccount.deposit]
      split_ifs with h0
      · exact ⟨hs, hc⟩
      · exact ⟨Double.thousand_le_add _ _ hs hA
          ((Double.not_le_iff amount 0 hAn Double.isNaN_zero).mp h0), hc⟩
    · simp only [Bank.call, Bank.deposit, CurrentAccount.deposit]
      split_ifs with h0
      · exact ⟨hs, hc⟩
      · exact ⟨hs, Double.zero_le_add _ _ hc hA
          ((Double.not_le_iff amount 0 hAn Double.isNaN_zero).mp h0)⟩
  | withdraw account amount =>
    have hA := hfin amount rfl
    cases account
    · simp only [Bank.call, Bank.withdraw, SavingsAccount.withdraw, SavingsAccount.MIN_BALANCE]
      split_ifs with h0 h1
      · exact ⟨hs, hc⟩
      · exact ⟨hs, hc⟩
      · have hn : (bank.savings.balance - amount).isNaN = false :=
          Double.isNaN_add_of_finite_right _ _ ((Double.le_def _ _).mp hs).2.1
            (by rw [Double.isFinite_negate]; exact hA)
        exact ⟨(Double.not_lt_iff _ _ hn Double.isNaN_thousand).mp h1, hc⟩
    · simp only [Bank.call, Bank.withdraw, CurrentAccount.withdraw]
      split_ifs with h0 h1
      · exact ⟨hs, hc⟩
      · exact ⟨hs, hc⟩
      · have hn : (bank.current.balance - amount).isNaN = false :=
          Double.isNaN_add_of_finite_right _ _ ((Double.le_def _ _).mp hc).2.1
            (by rw [Double.isFinite_negate]; exact hA)
        exact ⟨hs, (Double.not_lt_iff _ _ hn Double.isNaN_zero).mp h1⟩
  | checkBalance account =>
    cases account <;> exact ⟨hs, hc⟩

/-- A sequence of calls with finite amounts keeps both floors. -/
theorem calls_keep_floors (cs : List Call) : ∀ bank : Bank,
    (∀ c ∈ cs, ∀ a, c.amount = some a → a.isFinite = true) →
    (1000 ≤ bank.savings.balance ∧ 0 ≤ bank.current.balance) →
    1000 ≤ (bank.calls cs).savings.balance ∧ 0 ≤ (bank.calls cs).current.balance := by
  induction cs with
  | nil => intro bank _ h; exact h
  | cons c cs ih =>
    intro bank hfin h
    exact ih (bank.call c) (fun d hd => hfin d (List.mem_cons_of_mem _ hd))
      (call_keeps_floors bank c (hfin c (List.mem_cons_self _ _)) h)

/-- C3, counterexample: a deposit of NaN passes the test `amount <= 0` and makes the savings
balance NaN; a deposit of infinity followed by a withdrawal of infinity does the same to the
current balance. Neither floor holds afterwards. -/
theorem floors_fail :
    ¬ (1000 ≤ (initialBank.calls [Call.deposit AccountRef.savings Double.nan]).savings.balance) ∧
    ¬ (0 ≤ (initialBank.calls [Call.deposit AccountRef.current (Double.inf false),
          Call.withdraw AccountRef.current (Double.inf false)]).current.balance) := by
  decide

/-- C3, amended: after any finite sequence of deposit, withdraw and checkBalance calls whose
amounts are finite doubles (as every amount the validator returns is), starting from savings
2000 and current 3000, the savings balance is at least 1000 and the current balance is at
least 0. -/
theorem reachable_floors (cs : List Call)
    (hfin : ∀ c ∈ cs, ∀ a, c.amount = some a → a.isFinite = true) :
    1000 ≤ (initialBank.calls cs).savings.balance ∧
    0 ≤ (initialBank.calls cs).current.balance :=
  calls_keep_floors cs initialBank hfin (by decide)

/-- Instance of C3: withdraw 500 and then 600 from savings, and 3000 and then 1 from
current. -/
theorem reachable_floors_witness :
    1000 ≤ (initialBank.calls [Call.withdraw AccountRef.savings 500,
        Call.withdraw AccountRef.savings 600, Call.withdraw AccountRef.current 3000,
        Call.withdraw AccountRef.current 1]).savings.balance ∧
    0 ≤ (initialBank.calls [Call.withdraw AccountRef.savings 500,
        Call.withdraw AccountRef.savings 600, Call.withdraw AccountRef.current 3000,
        Call.withdraw AccountRef.current 1]).current.balance :=
  reachable_floors _ (by decide)

/-! ## Standard input: how much each operation uses up -/

theorem skipSpaces_length (cs : List Char) : (skipSpaces cs).length ≤ cs.length := by
  induction cs with
  | nil => simp [skipSpaces]
  | cons c cs ih =>
    simp only [skipSpaces]
    split_ifs
    · simp only [List.length_cons]
      omega
    · exact le_refl _

theorem takeDigits_length (cs : List Char) :
    (takeDigits cs).1.length + (takeDigits cs).2.length = cs.length := by
  induction cs with
  | nil => simp [takeDigits]
  | cons c cs ih =>
    simp only [takeDigits]
    split_ifs
    · simp only [List.length_cons]
      omega
    · simp

theorem takeSign_length (cs : List Char) : (takeSign cs).2.length ≤ cs.length := by
  cases cs with
  | nil => simp [takeSign]
  | cons c cs =>
    simp only [takeSign]
    split_ifs <;> simp

theorem takeFraction_length (cs : List Char) :
    (takeFraction cs).1.length + (takeFraction cs).2.length ≤ cs.length := by
  cases cs with
  | nil => simp [takeFraction]
  | cons c cs =>
    have := takeDigits_length cs
    simp only [takeFraction]
    split_ifs
    · simp only [List.length_cons]
      omega
    · simp

theorem takeExponent_length (cs : List Char) : (takeExponent cs).2.length ≤ cs.length := by
  cases cs with
  | nil => simp [takeExponent]
  | cons c cs =>
    have h1 := takeSign_length cs
    have h2 := takeDigits_length (takeSign cs).2
    simp only [takeExponent]
    split_ifs
    · simp only [List.length_cons]
      omega
    · simp

theorem scanInt_length (cs : List Char) :
    (scanInt cs).2.length ≤ cs.length ∧
    ((scanInt cs).1.fail = false → (scanInt cs).2.length < cs.length) := by
  have h1 := takeSign_length cs
  have h2 := takeDigits_length (takeSign cs).2
  have hpos : (takeDigits (takeSign cs).2).1 ≠ [] → 0 < (takeDigits (takeSign cs).2).1.length :=
    List.length_pos.mpr
  simp only [scanInt]
  split_ifs with h0 <;> refine ⟨by simp only; omega, ?_⟩ <;> intro hf
  all_goals first
    | (simp at hf; done)
    | (have hp := hpos h0
       simp only
       omega)

theorem extractInt_length (input : List Char) (r : IntRead) (rest : List Char)
    (h : extractInt input = some (r, rest)) :
    rest.length ≤ input.length ∧ rest ≠ [] ∧ (r.fail = false → rest.length < input.length) := by
  have hs := skipSpaces_length input
  unfold extractInt at h
  split at h
  · exact absurd h (by simp)
  · rename_i c cs hc
    rw [hc] at hs
    obtain ⟨h1, h2⟩ := scanInt_length (c :: cs)
    simp only at h
    split_ifs at h with h0
    simp only [Option.some.injEq] at h
    rw [h] at h1 h2 h0
    exact ⟨by simp only at h1; omega, h0, fun hf => by have := h2 hf; simp only at this; omega⟩

theorem scanDouble_length (cs : List Char) :
    (scanDouble cs).2.length ≤ cs.length ∧
    ((scanDouble cs).1.fail = false → (scanDouble cs).2.length < cs.length) := by
  have h1 := takeSign_length cs
  have h2 := takeDigits_length (takeSign cs).2
  have h3 := takeFraction_length (takeDigits (takeSign cs).2).2
  have h4 := takeExponent_length (takeFraction (takeDigits (takeSign cs).2).2).2
  simp only [scanDouble]
  split_ifs with h0
  · exact ⟨by simp only; omega, by simp⟩
  · have : 0 < ((takeDigits (takeSign cs).2).1
        ++ (takeFraction (takeDigits (takeSign cs).2).2).1).length := List.length_pos.mpr h0
    rw [List.length_append] at this
    exact ⟨by simp only; omega, fun _ => by simp only; omega⟩

theorem extractDouble_length (input : List Char) (r : DoubleRead) (rest : List Char)
    (h : extractDouble input = some (r, rest)) :
    rest.length ≤ input.length ∧ rest ≠ [] ∧ (r.fail = false → rest.length < input.length) := by
  have hs := skipSpaces_length input
  unfold extractDouble at h
  split at h
  · exact absurd h (by simp)
  · rename_i c cs hc
    rw [hc] at hs
    obtain ⟨h1, h2⟩ := scanDouble_length (c :: cs)
    simp only at h
    split_ifs at h with h0
    simp only [Option.some.injEq] at h
    rw [h] at h1 h2 h0
    exact ⟨by simp only at h1; omega, h0, fun hf => by have := h2 hf; simp only at this; omega⟩

theorem ignoreLine_length (input rest : List Char) (h : ignoreLine input = some rest) :
    rest.length < input.length := by
  induction input with
  | nil => simp [ignoreLine] at h
  | cons c cs ih =>
    simp only [ignoreLine] at h
    split_ifs at h
    · simp only [Option.some.injEq] at h
      rw [h]
      simp
    · have := ih h
      simp only [List.length_cons]
      omega

theorem get_length (input rest : List Char) (h : get input = some rest) :
    rest.length < input.length := by
  cases input with
  | nil => simp [get] at h
  | cons c cs =>
    simp only [get, Option.some.injEq] at h
    rw [h]
    simp

theorem pauseScreen_length (input rest : List Char) (h : pauseScreen input = some rest) :
    rest.length < input.length := by
  unfold pauseScreen at h
  split at h
  · exact absurd h (by simp)
  · rename_i r1 h1
    have := ignoreLine_length input r1 h1
    have := get_length r1 rest h
    omega

/-! ## Fuel -/

/-- What `wcin >> amount` stores without failing is a finite double. -/
theorem storeDouble_finite (neg : Bool) (T : Nat)
    (hf : (storeDouble neg (Double.round neg T)).fail = false) :
    (storeDouble neg (Double.round neg T)).value.isFinite = true := by
  unfold storeDouble at hf ⊢
  by_cases hi : (Double.round neg T).isInf = true
  · simp [hi] at hf
  · simp only [hi, Bool.false_eq_true, if_false]
    have hn := Double.isNaN_round neg T
    simp only [Double.isFinite, Double.isInf, Double.isNaN, decide_eq_true_eq,
      decide_eq_false_iff_not] at hi hn ⊢
    omega

theorem convertDouble_finite (neg : Bool) (mantissa : List Char) (fracLen : Nat)
    (ex : Option (Option Bool × List Char))
    (hf : (convertDouble neg mantissa fracLen ex).fail = false) :
    (convertDouble neg mantissa fracLen ex).value.isFinite = true := by
  unfold convertDouble at hf ⊢
  split at hf
  · exact storeDouble_finite _ _ hf
  · simp at hf
  · exact storeDouble_finite _ _ hf

theorem scanDouble_finite (cs : List Char) (h : (scanDouble cs).1.fail = false) :
    (scanDouble cs).1.value.isFinite = true := by
  simp only [scanDouble] at h ⊢
  by_cases h0 : (takeDigits (takeSign cs).2).1
      ++ (takeFraction (takeDigits (takeSign cs).2).2).1 = []
  · simp [h0] at h
  · simp only [h0, if_false] at h ⊢
    exact convertDouble_finite _ _ _ _ h

theorem extractDouble_finite (input : List Char) (r : DoubleRead) (rest : List Char)
    (h : extractDouble input = some (r, rest)) (hf : r.fail = false) :
    r.value.isFinite = true := by
  unfold extractDouble at h
  split at h
  · exact absurd h (by simp)
  · rename_i c cs hc
    simp only at h
    split_ifs at h
    simp only [Option.some.injEq] at h
    have := scanDouble_finite (c :: cs)
    rw [h] at this
    exact this hf

/-- With more fuel than input the validator loop never runs out of fuel, leaves no more input
than it was given, and returns only after using some of it; what it returns is finite and
not negative. -/
theorem getValidAmountLoop_progress (fuel : Nat) : ∀ input : List Char, input.length < fuel →
    (getValidAmountLoop fuel input).status ≠ Status.outOfFuel ∧
    (getValidAmountLoop fuel input).rest.length ≤ input.length ∧
    ((getValidAmountLoop fuel input).status = Status.returned →
      (getValidAmountLoop fuel input).rest.length < input.length ∧
      (getValidAmountLoop fuel input).amount.isFinite = true ∧
      ¬ (getValidAmountLoop fuel input).amount < 0) := by
  induction fuel with
  | zero => intro input h; omega
  | succ k ih =>
    intro input h
    rw [getValidAmountLoop]
    cases hx : extractDouble input with
    | none => simp
    | some p =>
      obtain ⟨r, rest⟩ := p
      obtain ⟨h1, _, h2⟩ := extractDouble_length input r rest hx
      simp only
      by_cases hrej : (r.fail || decide (r.value < 0)) = true
      · rw [if_pos hrej]
        cases hi : ignoreLine rest with
        | none => exact ⟨by simp, by simpa using h1, by simp⟩
        | some rest1 =>
          have h3 := ignoreLine_length rest rest1 hi
          obtain ⟨a, b, c⟩ := ih rest1 (by omega)
          simp only [AmountRun.after]
          exact ⟨a, by omega, fun hs => ⟨by have := (c hs).1; omega, (c hs).2⟩⟩
      · rw [if_neg hrej]
        have hf : r.fail = false := by
          cases hr : r.fail
          · rfl
          · simp [hr] at hrej
        have hv : ¬ r.value < 0 := by
          intro hlt
          simp [hlt] at hrej
        exact ⟨by simp, by simpa using h1,
          fun _ => ⟨by simpa using h2 hf, extractDouble_finite input r rest hx hf, hv⟩⟩

/-- The result of the validator loop does not depend on the fuel, once there is more of it
than input. -/
theorem getValidAmountLoop_fuel (fuel : Nat) : ∀ (input : List Char) (fuel2 : Nat),
    input.length < fuel → input.length < fuel2 →
    getValidAmountLoop fuel input = getValidAmountLoop fuel2 input := by
  induction fuel with
  | zero => intro input fuel2 h; omega
  | succ k ih =>
    intro input fuel2 h h2
    obtain ⟨j, rfl⟩ : ∃ j, fuel2 = j + 1 := ⟨fuel2 - 1, by omega⟩
    rw [getValidAmountLoop, getValidAmountLoop]
    cases hx : extractDouble input with
    | none => rfl
    | some p =>
      obtain ⟨r, rest⟩ := p
      obtain ⟨h1, _, _⟩ := extractDouble_length input r rest hx
      simp only
      split_ifs
      · cases hi : ignoreLine rest with
        | none => rfl
        | some rest1 =>
          have h3 := ignoreLine_length rest rest1 hi
          simp only
          rw [ih rest1 j (by omega) (by omega)]
      · rfl

theorem getValidAmount_progress (input : List Char) :
    (getValidAmount input).status ≠ Status.outOfFuel ∧
    (getValidAmount input).rest.length ≤ input.length ∧
    ((getValidAmount input).status = Status.returned →
      (getValidAmount input).rest.length < input.length ∧
      (getValidAmount input).amount.isFinite = true ∧
      ¬ (getValidAmount input).amount < 0) :=
  getValidAmountLoop_progress (input.length + 1) input (Nat.lt_succ_self _)

/-- The validator on an entry that reads without failure as a value that is not negative:
that value is returned at once. -/
theorem getValidAmount_accept (input : List Char) (r : DoubleRead) (rest : List Char)
    (hx : extractDouble input = some (r, rest)) (hf : r.fail = false) (hv : ¬ r.value < 0) :
    getValidAmount input
      = { out := [], amount := r.value, rest := rest, status := Status.returned } := by
  rw [getValidAmount, getValidAmountLoop, hx]
  simp [hf, hv]

/-- The validator on an entry that fails to read or reads as a negative value: one error
message, the rest of the line is dropped, and the validator starts again on the next line. -/
theorem getValidAmount_reject (input : List Char) (r : DoubleRead) (rest rest1 : List Char)
    (hx : extractDouble input = some (r, rest)) (hrej : r.fail = true ∨ r.value < 0)
    (hi : ignoreLine rest = some rest1) :
    getValidAmount input = (getValidAmount rest1).after [Msg.invalidAmount] := by
  obtain ⟨h1, _, _⟩ := extractDouble_length input r rest hx
  have h3 := ignoreLine_length rest rest1 hi
  have hc : (r.fail || decide (r.value < 0)) = true := by
    rcases hrej with h | h
    · simp [h]
    · simp [h]
  rw [getValidAmount, getValidAmountLoop, hx]
  simp only [hc, if_true, hi]
  rw [getValidAmountLoop_fuel input.length rest1 (rest1.length + 1) (by omega) (by omega)]
  rfl

/-- A pass through the body of the account menu never reports lack of fuel and never leaves
more input than it was given; one that reaches the loop condition has used some of it. -/
theorem subMenuBody_progress (account : AccountRef) (choice : Int) (bank : Bank)
    (input : List Char) :
    (subMenuBody account choice bank input).status ≠ Status.outOfFuel ∧
    (subMenuBody account choice bank input).rest.length ≤ input.length ∧
    ((subMenuBody account choice bank input).status = Status.returned →
      (subMenuBody account choice bank input).rest.length < input.length) := by
  unfold subMenuBody
  cases hx : extractInt input with
  | none => simp
  | some p =>
    obtain ⟨r, rest⟩ := p
    obtain ⟨h1, _, h2⟩ := extractInt_length input r rest hx
    obtain ⟨g1, g2, g3⟩ := getValidAmount_progress rest
    have hpause : ∀ (x y : List Char), pauseScreen x = some y → y.length < x.length :=
      pauseScreen_length
    simp only
    split_ifs with hf c1 c2 c3 c4
    · split
      · exact ⟨by simp, by simpa using h1, by simp⟩
      · rename_i rest1 hi
        have h3 := ignoreLine_length rest rest1 hi
        split
        · exact ⟨by simp, by simp only; omega, by simp⟩
        · rename_i rest2 hp
          have h4 := hpause rest1 rest2 hp
          exact ⟨by simp, by simp only; omega, fun _ => by simp only; omega⟩
    · split
      · rename_i hs
        have h5 := (g3 hs).1
        split
        · exact ⟨by simp, by simp only; omega, by simp⟩
        · rename_i rest2 hp
          have h4 := hpause _ rest2 hp
          exact ⟨by simp, by simp only; omega, fun _ => by simp only; omega⟩
      · rename_i s hs
        refine ⟨?_, by simp only; omega, ?_⟩
        · simp only
          exact g1
        · intro h
          simp only at h
          exact absurd h hs
    · split
      · rename_i hs
        have h5 := (g3 hs).1
        split
        · exact ⟨by simp, by simp only; omega, by simp⟩
        · rename_i rest2 hp
          have h4 := hpause _ rest2 hp
          exact ⟨by simp, by simp only; omega, fun _ => by simp only; omega⟩
      · rename_i s hs
        refine ⟨?_, by simp only; omega, ?_⟩
        · simp only
          exact g1
        · intro h
          simp only at h
          exact absurd h hs
    all_goals
      split
      · exact ⟨by simp, by simpa using h1, by simp⟩
      · rename_i rest2 hp
        have h4 := hpause rest rest2 hp
        exact ⟨by simp, by simp only; omega, fun _ => by simp only; omega⟩

/-- The result of the account menu loop does not depend on the fuel, once there is more of it
than input. -/
theorem subMenuLoop_fuel (account : AccountRef) (choice : Int) (fuel : Nat) :
    ∀ (bank : Bank) (input : List Char) (fuel2 : Nat),
      input.length < fuel → input.length < fuel2 →
      subMenuLoop fuel account choice bank input = subMenuLoop fuel2 account choice bank input := by
  induction fuel with
  | zero => intro bank input fuel2 h; omega
  | succ k ih =>
    intro bank input fuel2 h h2
    obtain ⟨j, rfl⟩ : ∃ j, fuel2 = j + 1 := ⟨fuel2 - 1, by omega⟩
    obtain ⟨_, _, hlt⟩ := subMenuBody_progress account choice bank input
    rw [subMenuLoop, subMenuLoop]
    cases hs : (subMenuBody account choice bank input).status with
    | returned =>
      have := hlt hs
      simp only
      split_ifs
      · rw [ih _ _ j (by omega) (by omega)]
      · rfl
    | awaitingInput => rfl
    | outOfFuel => rfl

/-- With more fuel than input the account menu loop never runs out of fuel and leaves no more
input than it was given; when it returns it has used some of it. -/
theorem subMenuLoop_progress (account : AccountRef) (choice : Int) (fuel : Nat) :
    ∀ (bank : Bank) (input : List Char), input.length < fuel →
      (subMenuLoop fuel account choice bank input).status ≠ Status.outOfFuel ∧
      (subMenuLoop fuel account choice bank input).rest.length ≤ input.length ∧
      ((subMenuLoop fuel account choice bank input).status = Status.returned →
        (subMenuLoop fuel account choice bank input).rest.length < input.length) := by
  induction fuel with
  | zero => intro bank input h; omega
  | succ k ih =>
    intro bank input h
    obtain ⟨hne, hle, hlt⟩ := subMenuBody_progress account choice bank input
    rw [subMenuLoop]
    cases hs : (subMenuBody account choice bank input).status with
    | returned =>
      have hl := hlt hs
      simp only
      split_ifs with h4
      · obtain ⟨a, b, c⟩ := ih (subMenuBody account choice bank input).bank
          (subMenuBody account choice bank input).rest (by omega)
        simp only [Run.after]
        exact ⟨a, by omega, fun hr => by have := c hr; omega⟩
      · exact ⟨by simp, by simp only; omega, fun _ => by simp only; omega⟩
    | awaitingInput => exact ⟨by simp, hle, by simp⟩
    | outOfFuel => exact absurd hs hne

theorem subMenu_progress (account : AccountRef) (choice : Int) (bank : Bank)
    (input : List Char) :
    (subMenu account choice bank input).status ≠ Status.outOfFuel ∧
    (subMenu account choice bank input).rest.length ≤ input.length ∧
    ((subMenu account choice bank input).status = Status.returned →
      (subMenu account choice bank input).rest.length < input.length) :=
  subMenuLoop_progress account choice (input.length + 1) bank input (Nat.lt_succ_self _)

/-- When a pass through the body of the account menu reaches the loop condition with
`subChoice != 4`, the menu goes round again from the state the body left. -/
theorem subMenu_again (account : AccountRef) (choice : Int) (bank : Bank) (input : List Char)
    (hstatus : (subMenuBody account choice bank input).status = Status.returned)
    (hsub : (subMenuBody account choice bank input).subChoice ≠ 4) :
    subMenu account choice bank input
      = (subMenu account choice (subMenuBody account choice bank input).bank
          (subMenuBody account choice bank input).rest).after
          (subMenuBody account choice bank input).out := by
  have hlt := (subMenuBody_progress account choice bank input).2.2 hstatus
  conv_lhs => rw [subMenu, subMenuLoop]
  simp only [hstatus, hsub, ne_eq, not_false_eq_true, if_true]
  rw [subMenuLoop_fuel account choice input.length _ _
    ((subMenuBody account choice bank input).rest.length + 1) (by omega) (by omega)]
  rfl

/-- When a pass through the body of the account menu reaches the loop condition with
`subChoice == 4`, the menu returns. -/
theorem subMenu_back (account : AccountRef) (choice : Int) (bank : Bank) (input : List Char)
    (hstatus : (subMenuBody account choice bank input).status = Status.returned)
    (hsub : (subMenuBody account choice bank input).subChoice = 4) :
    subMenu account choice bank input
      = { bank := (subMenuBody account choice bank input).bank,
          out := (subMenuBody account choice bank input).out,
          rest := (subMenuBody account choice bank input).rest,
          status := Status.returned } := by
  rw [subMenu, subMenuLoop]
  simp [hstatus, hsub]

/-- A pass through the body of the main menu never reports lack of fuel and never leaves more
input than it was given; one that reaches the loop condition has used some of it. -/
theorem mainBody_progress (account : Option AccountRef) (bank : Bank) (input : List Char) :
    (mainBody account bank input).status ≠ Status.outOfFuel ∧
    (mainBody account bank input).rest.length ≤ input.length ∧
    ((mainBody account bank input).status = Status.returned →
      (mainBody account bank input).rest.length < input.length) := by
  unfold mainBody
  cases hx : extractInt input with
  | none => simp
  | some p =>
    obtain ⟨r, rest⟩ := p
    obtain ⟨h1, _, h2⟩ := extractInt_length input r rest hx
    simp only
    by_cases hf : r.fail = true
    · rw [if_pos hf]
      split
      · exact ⟨by simp, by simpa using h1, by simp⟩
      · rename_i rest1 hi
        have h3 := ignoreLine_length rest rest1 hi
        split
        · exact ⟨by simp, by simp only; omega, by simp⟩
        · rename_i rest2 hp
          have h4 := pauseScreen_length rest1 rest2 hp
          exact ⟨by simp, by simp only; omega, fun _ => by simp only; omega⟩
    · rw [if_neg hf]
      have hf2 : r.fail = false := by simpa using hf
      have h2 := h2 hf2
      split
      · split
        · exact ⟨by simp, by simpa using h1, by simp⟩
        · rename_i rest2 hp
          have h4 := pauseScreen_length rest rest2 hp
          exact ⟨by simp, by simp only; omega, fun _ => by simp only; omega⟩
      · exact ⟨by simp, by simpa using h1, fun _ => by simpa using h2⟩
      · rename_i a said hsw
        obtain ⟨s1, s2, _⟩ := subMenu_progress a r.value bank rest
        exact ⟨s1, by simp only; omega, fun _ => by simp only; omega⟩

/-- With more fuel than input the main menu loop never runs out of fuel. -/
theorem mainLoop_progress (fuel : Nat) :
    ∀ (account : Option AccountRef) (bank : Bank) (input : List Char), input.length < fuel →
      (mainLoop fuel account bank input).status ≠ Status.outOfFuel := by
  induction fuel with
  | zero => intro account bank input h; omega
  | succ k ih =>
    intro account bank input h
    obtain ⟨hne, hle, hlt⟩ := mainBody_progress account bank input
    rw [mainLoop]
    cases hs : (mainBody account bank input).status with
    | returned =>
      have hl := hlt hs
      simp only
      split_ifs with h3
      · simp only [Run.after]
        exact ih _ _ _ (by omega)
      · simp
    | awaitingInput => simp
    | outOfFuel => exact absurd hs hne

/-- On every input `main` either returns or is left waiting for more input: the fuel given to
the loops is always enough. -/
theorem main_fuel (input : List Char) : (main input).status ≠ Status.outOfFuel :=
  mainLoop_progress (input.length + 1) none initialBank input (Nat.lt_succ_self _)

/-! ## Balance floors in every run of the program -/

theorem subMenuBody_keeps_floors (account : AccountRef) (choice : Int) (bank : Bank)
    (input : List Char)
    (h : 1000 ≤ bank.savings.balance ∧ 0 ≤ bank.current.balance) :
    1000 ≤ (subMenuBody account choice bank input).bank.savings.balance ∧
    0 ≤ (subMenuBody account choice bank input).bank.current.balance := by
  have hdep : ∀ a : Double, a.isFinite = true →
      1000 ≤ (bank.deposit account a).1.savings.balance ∧
      0 ≤ (bank.deposit account a).1.current.balance :=
    fun a ha => call_keeps_floors bank (Call.deposit account a)
      (fun b hb => by simp only [Call.amount, Option.some.injEq] at hb; rw [← hb]; exact ha) h
  have hwd : ∀ a : Double, a.isFinite = true →
      1000 ≤ (bank.withdraw account a).2.1.savings.balance ∧
      0 ≤ (bank.withdraw account a).2.1.current.balance :=
    fun a ha => call_keeps_floors bank (Call.withdraw account a)
      (fun b hb => by simp only [Call.amount, Option.some.injEq] at hb; rw [← hb]; exact ha) h
  have hchk : 1000 ≤ (bank.checkBalance account).2.savings.balance ∧
      0 ≤ (bank.checkBalance account).2.current.balance :=
    call_keeps_floors bank (Call.checkBalance account) (fun b hb => by simp [Call.amount] at hb) h
  unfold subMenuBody
  cases hx : extractInt input with
  | none => exact h
  | some p =>
    obtain ⟨r, rest⟩ := p
    obtain ⟨_, _, g3⟩ := getValidAmount_progress rest
    simp only
    split_ifs
    · split
      · exact h
      · split <;> exact h
    · split
      · rename_i hs
        split <;> exact hdep _ (g3 hs).2.1
      · exact h
    · split
      · rename_i hs
        split <;> exact hwd _ (g3 hs).2.1
      · exact h
    · split <;> exact hchk
    · split <;> exact h
    · split <;> exact h

theorem subMenuLoop_keeps_floors (account : AccountRef) (choice : Int) (fuel : Nat) :
    ∀ (bank : Bank) (input : List Char),
      (1000 ≤ bank.savings.balance ∧ 0 ≤ bank.current.balance) →
      1000 ≤ (subMenuLoop fuel account choice bank input).bank.savings.balance ∧
      0 ≤ (subMenuLoop fuel account choice bank input).bank.current.balance := by
  induction fuel with
  | zero => intro bank input h; exact h
  | succ k ih =>
    intro bank input h
    have hb := subMenuBody_keeps_floors account choice bank input h
    rw [subMenuLoop]
    split
    · split_ifs
      · exact ih _ _ hb
      · exact hb
    · exact hb

theorem mainBody_keeps_floors (account : Option AccountRef) (bank : Bank) (input : List Char)
    (h : 1000 ≤ bank.savings.balance ∧ 0 ≤ bank.current.balance) :
    1000 ≤ (mainBody account bank input).bank.savings.balance ∧
    0 ≤ (mainBody account bank input).bank.current.balance := by
  unfold mainBody
  cases hx : extractInt input with
  | none => exact h
  | some p =>
    obtain ⟨r, rest⟩ := p
    simp only
    split_ifs
    · split
      · exact h
      · split <;> exact h
    all_goals
      split
      · split <;> exact h
      · exact h
      · exact subMenuLoop_keeps_floors _ _ _ _ _ h

theorem mainLoop_keeps_floors (fuel : Nat) :
    ∀ (account : Option AccountRef) (bank : Bank) (input : List Char),
      (1000 ≤ bank.savings.balance ∧ 0 ≤ bank.current.balance) →
      1000 ≤ (mainLoop fuel account bank input).bank.savings.balance ∧
      0 ≤ (mainLoop fuel account bank input).bank.current.balance := by
  induction fuel with
  | zero => intro account bank input h; exact h
  | succ k ih =>
    intro account bank input h
    have hb := mainBody_keeps_floors account bank input h
    rw [mainLoop]
    split
    · split_ifs
      · exact ih _ _ _ hb
      · exact hb
    · exact hb

/-- Whatever is typed, both floors hold at every point where the program returns or waits for
input: every amount that reaches an account has passed the validator and is finite. -/
theorem main_keeps_floors (input : List Char) :
    1000 ≤ (main input).bank.savings.balance ∧ 0 ≤ (main input).bank.current.balance :=
  mainLoop_keeps_floors _ none initialBank input (by decide)

/-! ## Standard input: one entry per line -/

theorem isDigit_newline : isDigit '\n' = false := by decide

theorem takeDigits_line (l more : List Char) :
    takeDigits (l ++ '\n' :: more) = ((takeDigits l).1, (takeDigits l).2 ++ '\n' :: more) := by
  induction l with
  | nil => simp [takeDigits, isDigit_newline]
  | cons c cs ih =>
    simp only [List.cons_append, takeDigits]
    split_ifs
    · have ih2 : takeDigits (cs.append ('\n' :: more))
          = ((takeDigits cs).1, (takeDigits cs).2 ++ '\n' :: more) := ih
      rw [ih2]
    · simp

theorem takeSign_line (l more : List Char) :
    takeSign (l ++ '\n' :: more) = ((takeSign l).1, (takeSign l).2 ++ '\n' :: more) := by
  cases l with
  | nil =>
    have h1 : ¬ '\n' = '+' := by decide
    have h2 : ¬ '\n' = '-' := by decide
    simp [takeSign, h1, h2]
  | cons c cs =>
    simp only [List.cons_append, takeSign]
    split_ifs <;> simp

theorem takeFraction_line (l more : List Char) :
    takeFraction (l ++ '\n' :: more)
      = ((takeFraction l).1, (takeFraction l).2 ++ '\n' :: more) := by
  cases l with
  | nil =>
    have h1 : ¬ '\n' = '.' := by decide
    simp [takeFraction, h1]
  | cons c cs =>
    simp only [List.cons_append, takeFraction]
    split_ifs
    · exact takeDigits_line cs more
    · simp

theorem takeExponent_line (l more : List Char) :
    takeExponent (l ++ '\n' :: more)
      = ((takeExponent l).1, (takeExponent l).2 ++ '\n' :: more) := by
  cases l with
  | nil =>
    have h1 : ¬ ('\n' = 'e' ∨ '\n' = 'E') := by decide
    simp [takeExponent, h1]
  | cons c cs =>
    simp only [List.cons_append, takeExponent]
    split_ifs
    · rw [takeSign_line, takeDigits_line]
    · simp

/-- Reading a `double` from a line looks at nothing beyond the end of the line. -/
theorem scanDouble_line (l more : List Char) :
    scanDouble (l ++ '\n' :: more) = ((scanDouble l).1, (scanDouble l).2 ++ '\n' :: more) := by
  simp only [scanDouble, takeSign_line, takeDigits_line, takeFraction_line, takeExponent_line]
  split_ifs <;> rfl

theorem takeDigits_suffix (cs : List Char) : (takeDigits cs).2 <:+ cs := by
  induction cs with
  | nil => simp [takeDigits]
  | cons c cs ih =>
    simp only [takeDigits]
    split_ifs
    · exact List.IsSuffix.trans ih (List.suffix_cons c cs)
    · exact List.suffix_refl _

theorem takeSign_suffix (cs : List Char) : (takeSign cs).2 <:+ cs := by
  cases cs with
  | nil => simp [takeSign]
  | cons c cs =>
    simp only [takeSign]
    split_ifs
    · exact List.suffix_cons c cs
    · exact List.suffix_cons c cs
    · exact List.suffix_refl _

theorem takeFraction_suffix (cs : List Char) : (takeFraction cs).2 <:+ cs := by
  cases cs with
  | nil => simp [takeFraction]
  | cons c cs =>
    simp only [takeFraction]
    split_ifs
    · exact List.IsSuffix.trans (takeDigits_suffix cs) (List.suffix_cons c cs)
    · exact List.suffix_refl _

theorem takeExponent_suffix (cs : List Char) : (takeExponent cs).2 <:+ cs := by
  cases cs with
  | nil => simp [takeExponent]
  | cons c cs =>
    simp only [takeExponent]
    split_ifs
    · exact List.IsSuffix.trans (takeDigits_suffix _)
        (List.IsSuffix.trans (takeSign_suffix cs) (List.suffix_cons c cs))
    · exact List.suffix_refl _

/-- What reading a `double` leaves unread is the end of the text it was given. -/
theorem scanDouble_suffix (cs : List Char) : (scanDouble cs).2 <:+ cs := by
  have h1 := takeSign_suffix cs
  have h2 := takeDigits_suffix (takeSign cs).2
  have h3 := takeFraction_suffix (takeDigits (takeSign cs).2).2
  have h4 := takeExponent_suffix (takeFraction (takeDigits (takeSign cs).2).2).2
  simp only [scanDouble]
  split_ifs
  · exact h3.trans (h2.trans h1)
  · exact h4.trans (h3.trans (h2.trans h1))

theorem ignoreLine_line (l more : List Char) (h : '\n' ∉ l) :
    ignoreLine (l ++ '\n' :: more) = some more := by
  induction l with
  | nil => simp [ignoreLine]
  | cons c cs ih =>
    have hc : c ≠ '\n' := fun e => h (by simp [e])
    have hcs : '\n' ∉ cs := fun e => h (List.mem_cons_of_mem _ e)
    simp [ignoreLine, hc, ih hcs]

theorem isEntry_spec (l : List Char) (h : isEntry l = true) :
    ∃ c cs, l = c :: cs ∧ isSpace c = false ∧ '\n' ∉ l := by
  cases l with
  | nil => simp [isEntry] at h
  | cons c cs =>
    simp only [isEntry, Bool.and_eq_true, Bool.not_eq_true', List.contains_eq_any_beq] at h
    refine ⟨c, cs, rfl, h.1, ?_⟩
    intro hm
    have := h.2
    simp only [List.any_eq_false, beq_iff_eq] at this
    exact this _ hm rfl

/-- Reading a `double` when the next line of input holds one entry. -/
theorem extractDouble_line (l more : List Char) (h : isEntry l = true) :
    extractDouble (l ++ '\n' :: more)
      = some ((scanDouble l).1, (scanDouble l).2 ++ '\n' :: more) := by
  obtain ⟨c, cs, rfl, hsp, _⟩ := isEntry_spec l h
  have hskip : skipSpaces ((c :: cs) ++ '\n' :: more) = c :: (cs ++ '\n' :: more) := by
    simp [skipSpaces, hsp]
  unfold extractDouble
  rw [hskip]
  have := scanDouble_line (c :: cs) more
  simp only [List.cons_append] at this
  simp only [this]
  simp

/-- After a rejected entry the rest of its line is dropped. -/
theorem ignoreLine_after_scan (l more : List Char) (h : isEntry l = true) :
    ignoreLine ((scanDouble l).2 ++ '\n' :: more) = some more := by
  obtain ⟨c, cs, rfl, _, hnl⟩ := isEntry_spec l h
  exact ignoreLine_line _ more (fun hm => hnl ((scanDouble_suffix (c :: cs)).subset hm))

/-! ## Amount validator -/

theorem unlines_append (before after : List (List Char)) :
    unlines (before ++ after) = unlines before ++ unlines after := by
  induction before with
  | nil => rfl
  | cons l ls ih => simp [unlines, ih]

/-- The validator on lines of one entry each: every line that fails to read or reads as a
negative value costs one error message, and the first line that reads without failure as a
value that is not negative is returned. -/
theorem getValidAmount_lines (before : List (List Char)) (l more : List Char)
    (hbefore : ∀ x ∈ before, isEntry x = true ∧
      ((scanDouble x).1.fail = true ∨ (scanDouble x).1.value < 0))
    (hl : isEntry l = true)
    (hacc : (scanDouble l).1.fail = false ∧ ¬ (scanDouble l).1.value < 0) :
    getValidAmount (unlines before ++ (l ++ '\n' :: more))
      = { out := List.replicate before.length Msg.invalidAmount,
          amount := (scanDouble l).1.value,
          rest := (scanDouble l).2 ++ '\n' :: more,
          status := Status.returned } := by
  induction before with
  | nil =>
    simp only [unlines, List.nil_append, List.length_nil, List.replicate_zero]
    exact getValidAmount_accept _ _ _ (extractDouble_line l more hl) hacc.1 hacc.2
  | cons x xs ih =>
    obtain ⟨hx, hrej⟩ := hbefore x (List.mem_cons_self _ _)
    have ih := ih (fun y hy => hbefore y (List.mem_cons_of_mem _ hy))
    have hin : unlines (x :: xs) ++ (l ++ '\n' :: more)
        = x ++ '\n' :: (unlines xs ++ (l ++ '\n' :: more)) := by
      simp [unlines]
    rw [hin, getValidAmount_reject _ _ _ _ (extractDouble_line x _ hx) hrej
      (ignoreLine_after_scan x _ hx), ih]
    simp [AmountRun.after, List.replicate_succ]

/-- C9, counterexample: the first entry, `1e400`, is a number `>= 0`, but it is above the
largest double: extraction fails on it, the validator writes an error and returns the next
entry, 5. And the entry `9007199254740993` is returned as 9007199254740992. -/
theorem getValidAmount_bounded :
    getValidAmount "1e400\n5\n".toList
      = { out := [Msg.invalidAmount], amount := 5, rest := "\n".toList,
          status := Status.returned } ∧
    getValidAmount "9007199254740993\n".toList
      = { out := [], amount := 9007199254740992, rest := "\n".toList,
          status := Status.returned } ∧
    (9007199254740992 : Double).toRat = 9007199254740992 := by
  refine ⟨by decide, by decide, ?_⟩
  simpa using Double.toRat_of_qunits 9007199254740992 9007199254740992 (by decide) (by decide)

/-- C9, amended: when the input is made of lines of one entry each and some entry is read by
`wcin >> amount` without failure as a value that is not negative, `getValidAmount` returns
what extraction stored for the first such entry, after writing one error message for each
earlier entry, each of which fails to read or is negative. Extraction stores the numeral
rounded to the nearest double, and fails on text that does not begin with a numeral and on
numerals that round beyond the largest double; the value returned is finite and not
negative. -/
theorem getValidAmount_first (lines : List (List Char)) (more : List Char)
    (hlines : ∀ l ∈ lines, isEntry l = true)
    (h : ∃ l ∈ lines, (scanDouble l).1.fail = false ∧ ¬ (scanDouble l).1.value < 0) :
    ∃ (before : List (List Char)) (l : List Char) (after : List (List Char)),
      lines = before ++ l :: after ∧
      (∀ x ∈ before, (scanDouble x).1.fail = true ∨ (scanDouble x).1.value < 0) ∧
      (scanDouble l).1.fail = false ∧ ¬ (scanDouble l).1.value < 0 ∧
      getValidAmount (unlines lines ++ more)
        = { out := List.replicate before.length Msg.invalidAmount,
            amount := (scanDouble l).1.value,
            rest := (scanDouble l).2 ++ '\n' :: (unlines after ++ more),
            status := Status.returned } ∧
      (getValidAmount (unlines lines ++ more)).amount.isFinite = true ∧
      ¬ (getValidAmount (unlines lines ++ more)).amount < 0 := by
  have split : ∃ (before : List (List Char)) (l : List Char) (after : List (List Char)),
      lines = before ++ l :: after ∧
      (∀ x ∈ before, (scanDouble x).1.fail = true ∨ (scanDouble x).1.value < 0) ∧
      (scanDouble l).1.fail = false ∧ ¬ (scanDouble l).1.value < 0 := by
    clear hlines
    induction lines with
    | nil => simp at h
    | cons x xs ih =>
      by_cases hx : (scanDouble x).1.fail = false ∧ ¬ (scanDouble x).1.value < 0
      · exact ⟨[], x, xs, rfl, by simp, hx.1, hx.2⟩
      · have hrej : (scanDouble x).1.fail = true ∨ (scanDouble x).1.value < 0 := by
          by_cases hf : (scanDouble x).1.fail = true
          · exact Or.inl hf
          · right
            have hf2 : (scanDouble x).1.fail = false := by simpa using hf
            by_contra hv
            exact hx ⟨hf2, hv⟩
        have hxs : ∃ l ∈ xs, (scanDouble l).1.fail = false ∧ ¬ (scanDouble l).1.value < 0 := by
          obtain ⟨e, he, hok⟩ := h
          rcases List.mem_cons.mp he with rfl | he2
          · exact absurd hok hx
          · exact ⟨e, he2, hok⟩
        obtain ⟨before, l, after, hsplit, hb, hf, hv⟩ := ih hxs
        refine ⟨x :: before, l, after, by simp [hsplit], ?_, hf, hv⟩
        intro y hy
        rcases List.mem_cons.mp hy with rfl | hy2
        · exact hrej
        · exact hb y hy2
  obtain ⟨before, l, after, hsplit, hb, hf, hv⟩ := split
  have hl : isEntry l = true := hlines l (by rw [hsplit]; simp)
  have hrun := getValidAmount_lines before l (unlines after ++ more)
    (fun x hx => ⟨hlines x (by rw [hsplit]; simp [hx]), hb x hx⟩) hl ⟨hf, hv⟩
  have hin : unlines lines ++ more = unlines before ++ (l ++ '\n' :: (unlines after ++ more)) := by
    rw [hsplit, unlines_append]
    simp [unlines]
  rw [hin, hrun]
  refine ⟨before, l, after, hsplit, hb, hf, hv, rfl, ?_, hv⟩
  exact scanDouble_finite l hf

/-- Instance of C9: the lines `abc`, `-5`, `1e400`, `0.5`, `7`. -/
theorem getValidAmount_first_witness :
    ∃ (before : List (List Char)) (l : List Char) (after : List (List Char)),
      ["abc".toList, "-5".toList, "1e400".toList, "0.5".toList, "7".toList]
        = before ++ l :: after ∧
      (∀ x ∈ before, (scanDouble x).1.fail = true ∨ (scanDouble x).1.value < 0) ∧
      (scanDouble l).1.fail = false ∧ ¬ (scanDouble l).1.value < 0 ∧
      getValidAmount (unlines ["abc".toList, "-5".toList, "1e400".toList, "0.5".toList,
          "7".toList] ++ [])
        = { out := List.replicate before.length Msg.invalidAmount,
            amount := (scanDouble l).1.value,
            rest := (scanDouble l).2 ++ '\n' :: (unlines after ++ []),
            status := Status.returned } ∧
      (getValidAmount (unlines ["abc".toList, "-5".toList, "1e400".toList, "0.5".toList,
          "7".toList] ++ [])).amount.isFinite = true ∧
      ¬ (getValidAmount (unlines ["abc".toList, "-5".toList, "1e400".toList, "0.5".toList,
          "7".toList] ++ [])).amount < 0 :=
  getValidAmount_first ["abc".toList, "-5".toList, "1e400".toList, "0.5".toList, "7".toList] []
    (by decide) ⟨"0.5".toList, by decide, by decide⟩

/-- The validator on the text of that instance: three error messages, then 0.5 is returned
and the line `7` is left unread. -/
theorem getValidAmount_example :
    getValidAmount "abc\n-5\n1e400\n0.5\n7\n".toList
      = { out := [Msg.invalidAmount, Msg.invalidAmount, Msg.invalidAmount],
          amount := Double.ofDecimal false 5 (-1), rest := "\n7\n".toList,
          status := Status.returned } := by
  decide

/-- The validator accepts the entry `0`. -/
theorem getValidAmount_zero :
    getValidAmount "0\n".toList
      = { out := [], amount := 0, rest := "\n".toList, status := Status.returned } := by
  decide

/-- What extraction into `double` stores for some texts: `0.1` and `1e-400` are rounded,
`1e400` fails with the largest double stored, `abc` and `1e` fail with 0 stored, and of `1.5x`
the numeral is read and `x` left. -/
theorem scanDouble_examples :
    (scanDouble "0.1".toList).1.fail = false ∧
    (scanDouble "0.1".toList).1.value.bits = 0x3FB999999999999A ∧
    scanDouble "1e-400".toList = ({ fail := false, value := 0 }, []) ∧
    scanDouble "1e400".toList = ({ fail := true, value := DBL_MAX false }, []) ∧
    scanDouble "abc".toList = ({ fail := true, value := 0 }, "abc".toList) ∧
    scanDouble "1e".toList = ({ fail := true, value := 0 }, []) ∧
    scanDouble "1.5x".toList = ({ fail := false, value := Double.ofDecimal false 15 (-1) },
      "x".toList) := by
  decide

/-! ## Account menu -/

/-- When `wcin >> x` fails for an `int x`, the value stored is 0 or one of the two bounds of
`int`. -/
theorem scanInt_fail_value (cs : List Char) (h : (scanInt cs).1.fail = true) :
    (scanInt cs).1.value = 0 ∨ (scanInt cs).1.value = INT_MIN ∨ (scanInt cs).1.value = INT_MAX := by
  simp only [scanInt] at h ⊢
  split_ifs at h ⊢ <;> simp at h ⊢

theorem extractInt_fail_value (input : List Char) (r : IntRead) (rest : List Char)
    (hx : extractInt input = some (r, rest)) (h : r.fail = true) :
    r.value = 0 ∨ r.value = INT_MIN ∨ r.value = INT_MAX := by
  unfold extractInt at hx
  split at hx
  · exact absurd hx (by simp)
  · rename_i c cs hc
    simp only at hx
    split_ifs at hx
    simp only [Option.some.injEq] at hx
    have := scanInt_fail_value (c :: cs)
    rw [hx] at this
    exact this h

/-- Text that does not begin with a digit or a sign is not read as an `int`: extraction fails,
stores 0 and uses up nothing. -/
theorem extractInt_not_numeral (input : List Char) (c : Char) (cs : List Char)
    (hskip : skipSpaces input = c :: cs) (hd : isDigit c = false) (hp : c ≠ '+')
    (hm : c ≠ '-') :
    extractInt input = some ({ fail := true, value := 0 }, c :: cs) := by
  unfold extractInt
  rw [hskip]
  simp [scanInt, takeSign, hp, hm, takeDigits, hd]

/-- One pass through the body of the account menu on a selection that fails to read as an
`int` or reads as an integer other than 1, 2, 3, 4. -/
theorem subMenuBody_invalid (account : AccountRef) (choice : Int) (bank : Bank)
    (input : List Char) (r : IntRead) (rest : List Char)
    (hx : extractInt input = some (r, rest))
    (hsel : r.fail = true ∨ (r.value ≠ 1 ∧ r.value ≠ 2 ∧ r.value ≠ 3 ∧ r.value ≠ 4)) :
    (subMenuBody account choice bank input).bank = bank ∧
    ((subMenuBody account choice bank input).status = Status.returned →
      (subMenuBody account choice bank input).subChoice ≠ 4 ∧
      (Msg.invalidInput ∈ (subMenuBody account choice bank input).out ∨
        Msg.invalidOption ∈ (subMenuBody account choice bank input).out)) := by
  unfold subMenuBody
  rw [hx]
  simp only
  by_cases hf : r.fail = true
  · have hv : r.value ≠ 4 := by
      rcases extractInt_fail_value input r rest hx hf with h | h | h <;> rw [h] <;> decide
    rw [if_pos hf]
    split
    · simp
    · split
      · simp
      · simp [hv]
  · rw [if_neg hf]
    rcases hsel with h | ⟨h1, h2, h3, h4⟩
    · exact absurd h hf
    · rw [if_neg h1, if_neg h2, if_neg h3, if_neg h4]
      split
      · simp
      · simp [h4]

/-- C8, counterexample: at the savings menu the non-numeric selection `1abc` is read as 1:
the deposit prompt follows, `abc` is rejected as an amount, the next line `500` is deposited
and the balance goes from 2000 to 2500. The non-numeric selection `4abc` is read as 4 and the
menu returns to the main menu instead of being shown again. -/
theorem subMenu_trailing_text :
    subMenu AccountRef.savings 1 initialBank "1abc\n500\n\n4\n\n".toList
      = { bank := { savings := { balance := 2500 }, current := { balance := 3000 } },
          out := [Msg.clear, Msg.savingsBanner, Msg.accountOptions,
                  Msg.clear, Msg.depositPrompt, Msg.invalidAmount, Msg.deposited 500 2500,
                  Msg.pause,
                  Msg.clear, Msg.savingsBanner, Msg.accountOptions,
                  Msg.clear, Msg.returning, Msg.pause],
          rest := [],
          status := Status.returned } ∧
    subMenu AccountRef.savings 1 initialBank "4abc\n\n1\n".toList
      = { bank := initialBank,
          out := [Msg.clear, Msg.savingsBanner, Msg.accountOptions,
                  Msg.clear, Msg.returning, Msg.pause],
          rest := "1\n".toList,
          status := Status.returned } := by
  decide

/-- C8, amended: in the account menu, a selection on which `wcin >> subChoice` fails (text that
does not begin with an integer numeral, or a numeral outside the range of `int`) or that is
read as an integer other than 1, 2, 3 or 4 leaves both accounts as they were; once the pause
has had its key presses, an error message has been written and the loop goes round again:
the menu then handles the remaining input exactly as it would have from the same state. A
selection that begins with an integer numeral is read as that integer, whatever follows it
on the line. -/
theorem subMenu_invalid_selection (account : AccountRef) (choice : Int) (bank : Bank)
    (input : List Char) (r : IntRead) (rest : List Char)
    (hx : extractInt input = some (r, rest))
    (hsel : r.fail = true ∨ (r.value ≠ 1 ∧ r.value ≠ 2 ∧ r.value ≠ 3 ∧ r.value ≠ 4)) :
    (subMenuBody account choice bank input).bank = bank ∧
    (subMenu account choice bank input).status ≠ Status.outOfFuel ∧
    ((subMenuBody account choice bank input).status = Status.returned →
      (subMenuBody account choice bank input).subChoice ≠ 4 ∧
      (Msg.invalidInput ∈ (subMenuBody account choice bank input).out ∨
        Msg.invalidOption ∈ (subMenuBody account choice bank input).out) ∧
      subMenu account choice bank input
        = (subMenu account choice bank (subMenuBody account choice bank input).rest).after
            (subMenuBody account choice bank input).out) ∧
    (∀ (c : Char) (cs : List Char), skipSpaces input = c :: cs → isDigit c = false →
      c ≠ '+' → c ≠ '-' → r.fail = true) := by
  obtain ⟨hbank, hret⟩ := subMenuBody_invalid account choice bank input r rest hx hsel
  refine ⟨hbank, (subMenu_progress account choice bank input).1, ?_, ?_⟩
  · intro hs
    obtain ⟨h4, hmsg⟩ := hret hs
    refine ⟨h4, hmsg, ?_⟩
    have := subMenu_again account choice bank input hs h4
    rw [hbank] at this
    exact this
  · intro c cs hskip hd hp hm
    have := extractInt_not_numeral input c cs hskip hd hp hm
    rw [hx] at this
    simp only [Option.some.injEq, Prod.mk.injEq] at this
    rw [this.1]

/-- Instances of C8: entering 9, and entering `abc`, at the savings menu. -/
theorem subMenu_invalid_selection_witness :
    (subMenuBody AccountRef.savings 1 initialBank "9\n\n4\n\n".toList).status
      = Status.returned ∧
    (subMenuBody AccountRef.savings 1 initialBank "9\n\n4\n\n".toList).bank = initialBank ∧
    subMenu AccountRef.savings 1 initialBank "9\n\n4\n\n".toList
      = (subMenu AccountRef.savings 1 initialBank "4\n\n".toList).after
          [Msg.clear, Msg.savingsBanner, Msg.accountOptions, Msg.invalidOption, Msg.pause] ∧
    (subMenuBody AccountRef.savings 1 initialBank "abc\n\n\n4\n\n".toList).status
      = Status.returned ∧
    subMenu AccountRef.savings 1 initialBank "abc\n\n\n4\n\n".toList
      = (subMenu AccountRef.savings 1 initialBank "4\n\n".toList).after
          [Msg.clear, Msg.savingsBanner, Msg.accountOptions, Msg.clear, Msg.invalidInput,
            Msg.pause] :=
  have h9 : extractInt "9\n\n4\n\n".toList = some ({ fail := false, value := 9 }, "\n\n4\n\n".toList) := by
    decide
  have ha : extractInt "abc\n\n\n4\n\n".toList
      = some ({ fail := true, value := 0 }, "abc\n\n\n4\n\n".toList) := by
    decide
  have s9 : (subMenuBody AccountRef.savings 1 initialBank "9\n\n4\n\n".toList).status
      = Status.returned := by decide
  have sa : (subMenuBody AccountRef.savings 1 initialBank "abc\n\n\n4\n\n".toList).status
      = Status.returned := by decide
  ⟨s9,
   (subMenu_invalid_selection AccountRef.savings 1 initialBank _ _ _ h9
      (Or.inr ⟨by decide, by decide, by decide, by decide⟩)).1,
   ((subMenu_invalid_selection AccountRef.savings 1 initialBank _ _ _ h9
      (Or.inr ⟨by decide, by decide, by decide, by decide⟩)).2.2.1 s9).2.2.trans (by decide),
   sa,
   ((subMenu_invalid_selection AccountRef.savings 1 initialBank _ _ _ ha
      (Or.inl rfl)).2.2.1 sa).2.2.trans (by decide)⟩

/-! ## Exit at the main menu -/

/-- While the pointer is still `nullptr`, choosing Exit ends the main loop at once. -/
theorem mainLoop_exit_unselected (fuel : Nat) (bank : Bank) (input rest : List Char)
    (hx : extractInt input = some ({ fail := false, value := 3 }, rest)) :
    mainLoop (fuel + 1) none bank input
      = { bank := bank, out := [Msg.clear, Msg.mainMenu, Msg.exiting], rest := rest,
          status := Status.returned } := by
  simp [mainLoop, mainBody, hx]

/-- Once an account has been selected, choosing Exit writes the farewell and then calls
`subMenu` on the account selected earlier, passing 3 as `choice`. -/
theorem mainBody_exit_selected (a : AccountRef) (bank : Bank) (input rest : List Char)
    (hx : extractInt input = some ({ fail := false, value := 3 }, rest)) :
    mainBody (some a) bank input
      = { account := some a, bank := (subMenu a 3 bank rest).bank,
          out := [Msg.clear, Msg.mainMenu, Msg.exiting] ++ (subMenu a 3 bank rest).out,
          rest := (subMenu a 3 bank rest).rest, choice := 3,
          status := (subMenu a 3 bank rest).status } := by
  simp [mainBody, hx]

/-- C7, evaluated: the user selects Savings, goes Back, selects Exit, and is then shown the
account menu again, where a deposit of 500 is carried out before the program ends. The empty
lines are the Enter key presses that `pauseScreen` waits for. -/
theorem main_exit_then_deposit :
    main "1\n4\n\n3\n1\n500\n\n4\n\n".toList
      = { bank := { savings := { balance := 2500 }, current := { balance := 3000 } },
          out := [Msg.clear, Msg.mainMenu,
                  Msg.clear, Msg.savingsBanner, Msg.accountOptions,
                  Msg.clear, Msg.returning, Msg.pause,
                  Msg.clear, Msg.mainMenu, Msg.exiting,
                  Msg.clear, Msg.accountOptions,
                  Msg.clear, Msg.depositPrompt, Msg.deposited 500 2500, Msg.pause,
                  Msg.clear, Msg.accountOptions,
                  Msg.clear, Msg.returning, Msg.pause],
          rest := [],
          status := Status.returned } := by
  decide

end BankDemo
